import Mathlib

/-!
# Verification of the JSZM Z-machine (V3) interpreter core

A shallow embedding, in Lean 4, of the parts of the JSZM interpreter needed
to settle the claims about its specification: the memory accessors, the
`store` destination dispatch, the arithmetic opcodes, the branch `predicate`
decoder, the `RANDOM` opcode, the `serialize` / `deserialize` save-game
codec, the `getText` Z-string decoder, the `handleInput` tokenizer, and the
object-table `move` operation.

Conventions used throughout the embedding:
* memory images and save blobs are `List Nat`, one entry per byte, each in
  `0..255` where the source guarantees it (Uint8Array);
* 16-bit machine quantities are `Int` (signed view) or `Nat` (unsigned
  view), with the wraparound the JavaScript typed-array / DataView writes
  perform made explicit (`toInt16`, `% 65536`, ...);
* fallible operations (DataView reads that throw RangeError out of bounds,
  operations on an absent call frame, ...) return `Option`;
* the data stack is a `List Int` whose *last* element is the top of the
  stack (matching the JavaScript array, whose end is the top);
* the call stack is a `List Frame` whose *head* is the current frame
  (matching the JavaScript array, which is accessed via `cs[0]`,
  `unshift` and `shift`).
-/

namespace JSZM

/-- Wrap an integer to a signed 16-bit value, as DataView.setInt16 followed
by getInt16 does, and as assignment into an `Int16Array` element does. -/
def toInt16 (n : Int) : Int := (n + 32768) % 65536 - 32768

/-- Wrap an integer to an unsigned 16-bit value (JavaScript `ToUint16`,
performed by `putu`'s `y & 65535` and by DataView.setUint16). -/
def toUint16 (n : Int) : Nat := (n % 65536).toNat

/-- Reinterpret an unsigned 16-bit value as signed (DataView.getInt16 of
bytes that were just read unsigned). -/
def sign16 (n : Nat) : Int := if n < 32768 then (n : Int) else (n : Int) - 65536

/-- Wrap an integer to a signed 32-bit value; `jsImul` below uses it. -/
def toInt32 (n : Int) : Int := (n + 2147483648) % 4294967296 - 2147483648

/-- JavaScript `Math.imul(a, b)`: the signed 32-bit product. -/
def jsImul (a b : Int) : Int := toInt32 (a * b)

/-- `this.getu(x)` — `DataView.getUint16(x, byteSwapped)` over the working
memory: big-endian unless the byte-swap flag `bsw` is set.  `none` models
the RangeError thrown when `x + 2` exceeds the buffer length. -/
def getu? (mem : List Nat) (bsw : Bool) (x : Nat) : Option Nat :=
  match mem[x]?, mem[x + 1]? with
  | some a, some b => some (if bsw then b * 256 + a else a * 256 + b)
  | _, _ => none

/-- `this.get(x)` — `DataView.getInt16(x, byteSwapped)`: the signed reading
of the same two bytes. -/
def geti? (mem : List Nat) (bsw : Bool) (x : Nat) : Option Int :=
  (getu? mem bsw x).map sign16

/-- `this.put(x, y)` / `this.putu(x, y)` — `DataView.setInt16` /
`setUint16` with the byte-swap flag: store the two bytes of `y mod 2^16`
at `x`, `x+1`; `none` models the RangeError thrown out of bounds.  (The
stored bytes of setInt16 and setUint16 agree, so one model serves both.) -/
def put? (mem : List Nat) (bsw : Bool) (x : Nat) (y : Int) : Option (List Nat) :=
  if x + 2 ≤ mem.length then
    let hi := toUint16 y / 256
    let lo := toUint16 y % 256
    some (if bsw then (mem.set x lo).set (x + 1) hi else (mem.set x hi).set (x + 1) lo)
  else none

/-- One frame of the call stack: the saved data stack, the saved program
counter, and the local variables (an `Int16Array` in the source, hence
each entry is a signed 16-bit value whenever the source built it). -/
structure Frame where
  pc : Nat
  ds : List Int
  locals : List Int
deriving Repr, DecidableEq

/-- The machine state the `store` / `fetch` family acts on: working memory,
byte-swap flag, globals base (`header(12) − 32`, computed at `init`), data
stack, call stack and program counter. -/
structure State where
  mem : List Nat
  bsw : Bool
  globals : Nat
  ds : List Int
  cs : List Frame
  pc : Nat
deriving Repr, DecidableEq

/-- `store(y)` (part_000 lines 437-442): consume the store byte at the PC;
destination 0 pushes `y` onto the data stack *unwrapped* (a plain JavaScript
array push), destinations 1..15 assign the current frame's local (an
`Int16Array` assignment, which wraps to 16 bits; an out-of-range index is a
silent no-op), destinations 16..255 write the global slot via `put` (which
also wraps).  `none` models the TypeError of `cs[0].local` on an empty call
stack and the RangeError of an out-of-bounds DataView write. -/
def storeVal (s : State) (y : Int) : Option State := do
  let x ← s.mem[s.pc]?
  let s := { s with pc := s.pc + 1 }
  if x = 0 then
    some { s with ds := s.ds ++ [y] }
  else if x < 16 then
    match s.cs with
    | [] => none
    | f :: rest =>
      some { s with cs := { f with locals := f.locals.set (x - 1) (toInt16 y) } :: rest }
  else do
    let mem2 ← put? s.mem s.bsw (s.globals + 2 * x) y
    some { s with mem := mem2 }

/-- ADD (2OP 0x14): `store(a + b)` — plain JavaScript number addition. -/
def zADD (s : State) (a b : Int) : Option State := storeVal s (a + b)

/-- SUB (2OP 0x15): `store(a - b)`. -/
def zSUB (s : State) (a b : Int) : Option State := storeVal s (a - b)

/-- MUL (2OP 0x16): `store(Math.imul(a, b))`. -/
def zMUL (s : State) (a b : Int) : Option State := storeVal s (jsImul a b)

/-- DIV (2OP 0x17): `store(Math.trunc(a / b))`.  Truncation toward zero on
integers is `Int.tdiv`.  A zero divisor yields a non-finite JavaScript
number, outside this integer model (the spec leaves division by zero
implementation-defined), so the embedding returns `none` there. -/
def zDIV (s : State) (a b : Int) : Option State :=
  if b = 0 then none else storeVal s (Int.tdiv a b)

/-- MOD (2OP 0x18): `store(a % b)` — the JavaScript remainder, which takes
the sign of the dividend: `Int.tmod`.  Zero divisor as in `zDIV`. -/
def zMOD (s : State) (a b : Int) : Option State :=
  if b = 0 then none else storeVal s (Int.tmod a b)

/-- CALL (VAR 0x0) with routine packed address 0 (part_000 lines 740-758,
`else` branch): no frame is pushed, no operand is consumed, and `store(0)`
runs.  The embedding covers exactly that branch. -/
def zCALL0 (s : State) : Option State := storeVal s 0

/-- The value readable at store destination `x` in a state: the top of the
data stack for 0, the current frame's local `x` for 1..15, the global slot
for 16.. — the observation used to phrase what an opcode stored. -/
def destView (s : State) (x : Nat) : Option Int :=
  if x = 0 then s.ds.getLast?
  else if x < 16 then s.cs.head?.bind (fun f => f.locals[x - 1]?)
  else geti? s.mem s.bsw (s.globals + 2 * x)

theorem sign16_toUint16 (y : Int) : sign16 (toUint16 y) = toInt16 y := by
  simp only [sign16, toUint16, toInt16]
  split <;> omega

theorem geti_put (mem : List Nat) (bsw : Bool) (p : Nat) (y : Int)
    (mem2 : List Nat) (h : put? mem bsw p y = some mem2) :
    geti? mem2 bsw p = some (toInt16 y) := by
  simp only [put?] at h
  split at h
  · rename_i hb
    have hp : p < mem.length := by omega
    have hp1 : p + 1 < mem.length := by omega
    have hne : p + 1 ≠ p := by omega
    cases hs : bsw with
    | false =>
      simp only [hs, if_neg (Bool.false_ne_true), Option.some.injEq] at h
      subst h
      simp only [geti?, getu?, hs]
      rw [List.getElem?_set_self (by simpa using hp1),
        List.getElem?_set_ne hne, List.getElem?_set_self hp]
      simp only [Option.map_some, if_neg (Bool.false_ne_true)]
      rw [Nat.div_add_mod' (toUint16 y) 256]
      exact congrArg some (sign16_toUint16 y)
    | true =>
      rw [hs, if_pos rfl] at h
      rw [Option.some.injEq] at h
      subst h
      simp only [geti?, getu?, hs]
      rw [List.getElem?_set_self (by simpa using hp1),
        List.getElem?_set_ne hne, List.getElem?_set_self hp]
      simp only [Option.map_some, if_pos rfl]
      rw [Nat.div_add_mod' (toUint16 y) 256]
      exact congrArg some (sign16_toUint16 y)
  · exact absurd h (by simp)

/-- Full characterization of `store(y)`: where the value lands, how it is
wrapped, and which state components stay untouched. -/
theorem storeVal_spec (s : State) (y : Int) (x : Nat)
    (hx : s.mem[s.pc]? = some x)
    (hloc : x ≠ 0 → x < 16 → ∃ f rest, s.cs = f :: rest ∧ x - 1 < f.locals.length)
    (hglob : 16 ≤ x → s.globals + 2 * x + 2 ≤ s.mem.length) :
    ∃ s2, storeVal s y = some s2 ∧
      destView s2 x = some (if x = 0 then y else toInt16 y) ∧
      s2.pc = s.pc + 1 ∧ s2.bsw = s.bsw ∧ s2.globals = s.globals ∧
      (x = 0 → s2.ds = s.ds ++ [y] ∧ s2.cs = s.cs ∧ s2.mem = s.mem) ∧
      (x ≠ 0 → s2.ds = s.ds) ∧
      (x ≠ 0 → x < 16 → s2.mem = s.mem) ∧
      (16 ≤ x → s2.cs = s.cs) ∧
      s2.cs.length = s.cs.length ∧
      s2.cs.map Frame.pc = s.cs.map Frame.pc ∧
      s2.cs.map Frame.ds = s.cs.map Frame.ds := by
  by_cases h0 : x = 0
  · subst h0
    refine ⟨{ s with pc := s.pc + 1, ds := s.ds ++ [y] }, ?_, ?_⟩
    · simp [storeVal, hx]
    · simp [destView, List.getLast?_concat]
  · by_cases h16 : x < 16
    · obtain ⟨f, rest, hcs, hlen⟩ := hloc h0 h16
      refine ⟨{ s with
                  pc := s.pc + 1,
                  cs := { f with locals := f.locals.set (x - 1) (toInt16 y) } :: rest },
        ?_, ?_, by simp, by simp, by simp, fun h => absurd h h0, fun _ => by simp,
        fun _ _ => by simp, fun h => absurd h16 (by omega), ?_, ?_, ?_⟩
      · simp only [storeVal, hx, Option.bind_eq_bind, Option.some_bind, hcs]
        rw [if_neg h0, if_pos h16]
      · simp only [destView, if_neg h0, if_pos h16, List.head?_cons, Option.some_bind]
        rw [List.getElem?_set_self hlen]
      · simp [hcs]
      · simp [hcs]
      · simp [hcs]
    · have hge : 16 ≤ x := by omega
      have hb := hglob hge
      have hput : put? s.mem s.bsw (s.globals + 2 * x) y =
          some ((if s.bsw
            then (s.mem.set (s.globals + 2 * x) (toUint16 y % 256)).set
              (s.globals + 2 * x + 1) (toUint16 y / 256)
            else (s.mem.set (s.globals + 2 * x) (toUint16 y / 256)).set
              (s.globals + 2 * x + 1) (toUint16 y % 256))) := by
        simp only [put?, if_pos hb]
      refine ⟨{ s with
        pc := s.pc + 1,
        mem := (if s.bsw
          then (s.mem.set (s.globals + 2 * x) (toUint16 y % 256)).set
            (s.globals + 2 * x + 1) (toUint16 y / 256)
          else (s.mem.set (s.globals + 2 * x) (toUint16 y / 256)).set
            (s.globals + 2 * x + 1) (toUint16 y % 256)) }, ?_, ?_, by simp, by simp,
        by simp, fun h => absurd h h0, fun _ => by simp, fun _ h => absurd h h16,
        fun _ => by simp, by simp, by simp, by simp⟩
      · simp only [storeVal, hx, Option.bind_eq_bind, Option.some_bind]
        rw [if_neg h0, if_neg h16, hput]
        rfl
      · simp only [destView, if_neg h0, if_neg h16]
        exact geti_put s.mem s.bsw (s.globals + 2 * x) y _ (by rw [hput])

theorem neg_tmod_left (a b : Int) : Int.tmod (-a) b = -Int.tmod a b := by
  rw [Int.tmod_def, Int.tmod_def, Int.neg_tdiv]
  ring

theorem tmod_nonpos_of_nonpos (a b : Int) (h : a ≤ 0) : Int.tmod a b ≤ 0 := by
  have h2 := Int.tmod_nonneg (a := -a) b (by omega)
  rw [neg_tmod_left] at h2
  omega

theorem natAbs_tmod_lt (a b : Int) (hb : b ≠ 0) :
    (Int.tmod a b).natAbs < b.natAbs := by
  have habs : Int.tmod a b = Int.tmod a (b.natAbs : Int) := by
    rcases Int.natAbs_eq b with h | h
    · rw [← h]
    · conv_lhs => rw [h, Int.tmod_neg]
  have hpos : (0 : Int) < (b.natAbs : Int) := by
    have := Int.natAbs_pos.mpr hb
    omega
  rcases le_or_lt 0 a with ha | ha
  · have h1 := Int.tmod_nonneg (a := a) ((b.natAbs : Nat) : Int) ha
    have h2 := Int.tmod_lt_of_pos a hpos
    omega
  · have h1 := Int.tmod_nonneg (a := -a) ((b.natAbs : Nat) : Int) (by omega)
    have h2 := Int.tmod_lt_of_pos (-a) hpos
    rw [neg_tmod_left] at h1 h2
    omega

theorem toInt32_eq_of_bounds (n : Int) (h1 : -2147483648 ≤ n) (h2 : n < 2147483648) :
    toInt32 n = n := by
  simp only [toInt32]
  omega

/-- C3 (amended).  For 16-bit operands and a store destination that is a
local (1..15) or a global (16..), ADD, SUB, MUL, DIV and MOD store the
two's-complement 16-bit wraparound (`toInt16`) of the exact sum,
difference, 32-bit product, truncated quotient and remainder; when the
destination is the stack top (store byte 0) the *unwrapped* JavaScript
number is pushed instead.  DIV truncates toward zero (`Int.tdiv`, whose
magnitude is the quotient of magnitudes); MOD takes the sign of the
dividend (`Int.tmod`); MUL is `Math.imul`, which agrees with the exact
product on 16-bit operands, so its wrapped store is the low 16 bits of the
signed product. -/
theorem arith_opcodes_store (s : State) (a b : Int) (x : Nat)
    (hx : s.mem[s.pc]? = some x) (hb : b ≠ 0)
    (hloc : x ≠ 0 → x < 16 → ∃ f rest, s.cs = f :: rest ∧ x - 1 < f.locals.length)
    (hglob : 16 ≤ x → s.globals + 2 * x + 2 ≤ s.mem.length) :
    (∃ s2, zADD s a b = some s2 ∧
      destView s2 x = some (if x = 0 then a + b else toInt16 (a + b))) ∧
    (∃ s2, zSUB s a b = some s2 ∧
      destView s2 x = some (if x = 0 then a - b else toInt16 (a - b))) ∧
    (∃ s2, zMUL s a b = some s2 ∧
      destView s2 x = some (if x = 0 then jsImul a b else toInt16 (jsImul a b))) ∧
    (∃ s2, zDIV s a b = some s2 ∧
      destView s2 x = some (if x = 0 then Int.tdiv a b else toInt16 (Int.tdiv a b))) ∧
    (∃ s2, zMOD s a b = some s2 ∧
      destView s2 x = some (if x = 0 then Int.tmod a b else toInt16 (Int.tmod a b))) ∧
    (-32768 ≤ a → a < 32768 → -32768 ≤ b → b < 32768 → jsImul a b = a * b) ∧
    (b * Int.tdiv a b + Int.tmod a b = a) ∧
    ((Int.tdiv a b).natAbs = a.natAbs / b.natAbs) ∧
    (0 ≤ a → 0 ≤ Int.tmod a b) ∧ (a ≤ 0 → Int.tmod a b ≤ 0) ∧
    (Int.tmod a b).natAbs < b.natAbs := by
  refine ⟨?_, ?_, ?_, ?_, ?_, ?_, Int.tdiv_add_tmod a b, Int.natAbs_tdiv a b,
    fun h => Int.tmod_nonneg b h, tmod_nonpos_of_nonpos a b, natAbs_tmod_lt a b hb⟩
  · obtain ⟨s2, h1, h2, _⟩ := storeVal_spec s (a + b) x hx hloc hglob
    exact ⟨s2, h1, h2⟩
  · obtain ⟨s2, h1, h2, _⟩ := storeVal_spec s (a - b) x hx hloc hglob
    exact ⟨s2, h1, h2⟩
  · obtain ⟨s2, h1, h2, _⟩ := storeVal_spec s (jsImul a b) x hx hloc hglob
    exact ⟨s2, h1, h2⟩
  · obtain ⟨s2, h1, h2, _⟩ := storeVal_spec s (Int.tdiv a b) x hx hloc hglob
    exact ⟨s2, by rw [zDIV, if_neg hb]; exact h1, h2⟩
  · obtain ⟨s2, h1, h2, _⟩ := storeVal_spec s (Int.tmod a b) x hx hloc hglob
    exact ⟨s2, by rw [zMOD, if_neg hb]; exact h1, h2⟩
  · intro ha1 ha2 hb1 hb2
    exact toInt32_eq_of_bounds (a * b) (by nlinarith) (by nlinarith)

/-- C3 witness: ADD 5 3 with global destination 17 actually stores 8. -/
theorem arith_opcodes_store_witness :
    ∃ s2, zADD (State.mk (17 :: List.replicate 40 0) false 0 [] [] 0) 5 3 = some s2 ∧
      destView s2 17 = some 8 := by
  obtain ⟨⟨s2, h1, h2⟩, _⟩ :=
    arith_opcodes_store (State.mk (17 :: List.replicate 40 0) false 0 [] [] 0) 5 3 17
      (by rfl) (by decide) (fun _ h => absurd h (by decide)) (fun _ => by decide)
  refine ⟨s2, h1, ?_⟩
  rw [h2]
  norm_num [toInt16]

/-- C3 counterexample: with the stack top as destination, ADD 20000 20000
pushes the raw JavaScript number 40000 onto the data stack — not the
claimed two's-complement 16-bit result, which is −25536. -/
theorem add_to_stack_not_wrapped :
    zADD (State.mk [0] false 0 [] [] 0) 20000 20000 =
      some (State.mk [0] false 0 [40000] [] 1) ∧
    toInt16 (20000 + 20000) = -25536 ∧ ((40000 : Int) ≠ -25536) := by
  refine ⟨rfl, by decide, by decide⟩

/-- C8 (amended).  CALL with routine packed address 0 stores 0 to the
result destination and pushes no frame: the call stack keeps its length and
each frame keeps its saved PC and saved data stack (only a local of the top
frame changes when that local is the destination); the data stack is
unchanged when the destination is a local or a global, while a destination
of 0 pushes the stored 0 onto the data stack. -/
theorem call_zero_stores_zero (s : State) (x : Nat)
    (hx : s.mem[s.pc]? = some x)
    (hloc : x ≠ 0 → x < 16 → ∃ f rest, s.cs = f :: rest ∧ x - 1 < f.locals.length)
    (hglob : 16 ≤ x → s.globals + 2 * x + 2 ≤ s.mem.length) :
    ∃ s2, zCALL0 s = some s2 ∧
      destView s2 x = some 0 ∧
      s2.cs.length = s.cs.length ∧
      s2.cs.map Frame.pc = s.cs.map Frame.pc ∧
      s2.cs.map Frame.ds = s.cs.map Frame.ds ∧
      (x = 0 → s2.ds = s.ds ++ [0] ∧ s2.cs = s.cs) ∧
      (x ≠ 0 → s2.ds = s.ds) ∧
      (16 ≤ x → s2.cs = s.cs) := by
  obtain ⟨s2, h1, h2, _, _, _, hz, hn, _, hg, hlen, hpc, hds⟩ :=
    storeVal_spec s 0 x hx hloc hglob
  refine ⟨s2, h1, ?_, hlen, hpc, hds, fun h => ⟨(hz h).1, (hz h).2.1⟩, hn, hg⟩
  rw [h2]
  have : (if x = 0 then (0 : Int) else toInt16 0) = 0 := by
    split
    · rfl
    · norm_num [toInt16]
  rw [this]

/-- C8 witness: CALL(0) with global destination 16 stores 0 there and
leaves the stacks untouched. -/
theorem call_zero_stores_zero_witness :
    ∃ s2, zCALL0 (State.mk (16 :: List.replicate 40 0) false 0 [3] [] 0) = some s2 ∧
      destView s2 16 = some 0 ∧ s2.ds = [3] ∧ s2.cs = [] := by
  obtain ⟨s2, h1, h2, _, _, _, _, hn, hg⟩ :=
    call_zero_stores_zero (State.mk (16 :: List.replicate 40 0) false 0 [3] [] 0) 16
      (by rfl) (fun _ h => absurd h (by decide)) (fun _ => by decide)
  exact ⟨s2, h1, h2, hn (by decide), hg (by decide)⟩

/-- C8 counterexample: with the stack top (store byte 0) as destination,
CALL(0) pushes a 0, so the data stack contents do change. -/
theorem call_zero_alters_stack :
    zCALL0 (State.mk [0] false 0 [5] [] 0) = some (State.mk [0] false 0 [5, 0] [] 1) ∧
    ([5, 0] : List Int) ≠ [5] := ⟨rfl, by decide⟩

/-- The outcome of the branch decoder `predicate`: fall through to the next
instruction, return 0 or 1 from the current routine, or set the PC. -/
inductive BranchAction where
  | fallthrough (pc : Nat)
  | ret (v : Nat)
  | jump (pc : Int)
deriving Repr, DecidableEq

/-- `predicate(p)` (part_000 lines 407-415): read the branch byte `x`;
bit 7 set inverts the predicate; bit 6 set takes the low 6 bits as the
offset, else a second byte extends it to 14 bits; a (post-inversion) true
predicate falls through; offsets 0 and 1 return that value from the
current routine; otherwise bit 13 sign-extends the offset by −0x4000 and
the PC advances by offset − 2.  The returned `BranchAction` carries the PC
each arm leaves behind; `none` models an out-of-bounds read. -/
def predicate (mem : List Nat) (pc : Nat) (p : Bool) : Option BranchAction :=
  match mem[pc]? with
  | none => none
  | some x =>
    let p2 := if x &&& 128 ≠ 0 then !p else p
    let offAfter : Option (Nat × Nat) :=
      if x &&& 64 ≠ 0 then some (x &&& 63, pc + 1)
      else match mem[pc + 1]? with
        | none => none
        | some y => some (((x &&& 63) <<< 8) ||| y, pc + 2)
    match offAfter with
    | none => none
    | some (off, after) =>
      if p2 then some (.fallthrough after)
      else if off = 0 ∨ off = 1 then some (.ret off)
      else some (.jump ((after : Int) +
        (if off &&& 8192 ≠ 0 then (off : Int) - 16384 else (off : Int)) - 2))

/-- C5.  Branch decoding: the branch fires exactly when the predicate
matches the sense of bit 7; a fired branch with decoded offset 0 or 1
returns that value from the current routine instead of branching; any
other fired branch sets the PC to the address after the branch bytes plus
the offset minus 2, the 14-bit offset being sign-extended by subtracting
0x4000 when its bit 13 is set; a branch that does not fire falls through
to the address after the branch bytes. -/
theorem predicate_branch (mem : List Nat) (pc : Nat) (p : Bool) (B : Nat)
    (hB : mem[pc]? = some B) :
    (B &&& 64 ≠ 0 →
      (¬(p ↔ B &&& 128 ≠ 0) →
        predicate mem pc p = some (.fallthrough (pc + 1))) ∧
      ((p ↔ B &&& 128 ≠ 0) →
        ((B &&& 63 = 0 ∨ B &&& 63 = 1) →
          predicate mem pc p = some (.ret (B &&& 63))) ∧
        (2 ≤ B &&& 63 →
          predicate mem pc p =
            some (.jump (((pc + 1 : Nat) : Int) + ((B &&& 63 : Nat) : Int) - 2))))) ∧
    (B &&& 64 = 0 → ∀ y, mem[pc + 1]? = some y →
      (¬(p ↔ B &&& 128 ≠ 0) →
        predicate mem pc p = some (.fallthrough (pc + 2))) ∧
      ((p ↔ B &&& 128 ≠ 0) →
        ((((B &&& 63) <<< 8) ||| y = 0 ∨ ((B &&& 63) <<< 8) ||| y = 1) →
          predicate mem pc p = some (.ret (((B &&& 63) <<< 8) ||| y))) ∧
        (2 ≤ ((B &&& 63) <<< 8) ||| y →
          predicate mem pc p = some (.jump (((pc + 2 : Nat) : Int) +
            (if (((B &&& 63) <<< 8) ||| y) &&& 8192 ≠ 0
              then ((((B &&& 63) <<< 8) ||| y : Nat) : Int) - 16384
              else ((((B &&& 63) <<< 8) ||| y : Nat) : Int)) - 2))))) := by
  have hflip : ∀ q : Bool, ((if B &&& 128 ≠ 0 then !p else p) = q) →
      ((p ↔ B &&& 128 ≠ 0) ↔ (q = false)) := by
    intro q hq
    by_cases h7 : B &&& 128 ≠ 0
    · rw [if_pos h7] at hq
      subst hq
      cases p <;> simp [h7]
    · rw [if_neg h7] at hq
      subst hq
      cases p <;> simp [h7]
  constructor
  · intro h64
    have hpred : predicate mem pc p =
        (if (if B &&& 128 ≠ 0 then !p else p) then some (.fallthrough (pc + 1))
         else if B &&& 63 = 0 ∨ B &&& 63 = 1 then some (.ret (B &&& 63))
         else some (.jump (((pc + 1 : Nat) : Int) +
           (if (B &&& 63) &&& 8192 ≠ 0 then ((B &&& 63 : Nat) : Int) - 16384
            else ((B &&& 63 : Nat) : Int)) - 2))) := by
      simp [predicate, hB, h64]
    have hsmall : (B &&& 63) &&& 8192 = 0 := by
      rw [Nat.and_assoc, (by decide : (63 &&& 8192 : Nat) = 0)]
      exact Nat.and_zero B
    constructor
    · intro hfire
      rcases hq : (if B &&& 128 ≠ 0 then !p else p) with _ | _
      · exact absurd ((hflip false hq).mpr rfl) hfire
      · rw [hpred, hq, if_pos rfl]
    · intro hfire
      rcases hq : (if B &&& 128 ≠ 0 then !p else p) with _ | _
      · refine ⟨fun h01 => ?_, fun h2 => ?_⟩
        · rw [hpred, hq, if_neg (by simp), if_pos h01]
        · rw [hpred, hq, if_neg (by simp), if_neg (by omega), hsmall]
          simp
      · exact absurd ((hflip true hq).mp hfire) (by simp)
  · intro h64 y hy
    have hpred : predicate mem pc p =
        (if (if B &&& 128 ≠ 0 then !p else p) then some (.fallthrough (pc + 2))
         else if ((B &&& 63) <<< 8) ||| y = 0 ∨ ((B &&& 63) <<< 8) ||| y = 1 then
           some (.ret (((B &&& 63) <<< 8) ||| y))
         else some (.jump (((pc + 2 : Nat) : Int) +
           (if (((B &&& 63) <<< 8) ||| y) &&& 8192 ≠ 0
             then ((((B &&& 63) <<< 8) ||| y : Nat) : Int) - 16384
             else ((((B &&& 63) <<< 8) ||| y : Nat) : Int)) - 2))) := by
      simp [predicate, hB, h64, hy]
    constructor
    · intro hfire
      rcases hq : (if B &&& 128 ≠ 0 then !p else p) with _ | _
      · exact absurd ((hflip false hq).mpr rfl) hfire
      · rw [hpred, hq, if_pos rfl]
    · intro hfire
      rcases hq : (if B &&& 128 ≠ 0 then !p else p) with _ | _
      · refine ⟨fun h01 => ?_, fun h2 => ?_⟩
        · rw [hpred, hq, if_neg (by simp), if_pos h01]
        · rw [hpred, hq, if_neg (by simp), if_neg (by omega)]
      · exact absurd ((hflip true hq).mp hfire) (by simp)

/-- C5 witness: byte 0xC5 (branch on true, short offset 5) with a true
predicate jumps to `pc + 1 + 5 − 2`. -/
theorem predicate_branch_witness :
    predicate [197] 0 true = some (.jump 4) := by
  have h := ((predicate_branch [197] 0 true 197 (by rfl)).1 (by decide)).2
    (by simp) |>.2 (by decide)
  rw [h]
  decide

/-- One step of the RANDOM opcode's linear congruential generator:
`this.seed = (1664525 * this.seed + 1013904223) >>> 0`.  The products and
sums stay below 2^53, so the double-precision evaluation is exact and the
integer model is faithful. -/
def lcgNext (seed : Nat) : Nat := (1664525 * seed + 1013904223) % 4294967296

/-! The stored value of RANDOM is
`Math.floor((this.seed / 0xFFFFFFFF) * range) + 1`, computed in IEEE
binary64 ("double") arithmetic: the division and the multiplication each
round their exact rational result to the nearest double (ties to even).
Every quantity involved lies well inside the normal range of binary64
(magnitudes between 2^-33 and 2^16 — no subnormals, no overflow) and the
seed, `0xFFFFFFFF` and the 15-bit range are below 2^53 and hence exact, so
rounding to a double is exactly rounding the significand to 53 bits.  The
model below: `binExp x` is the binade exponent `e` with `2^e ≤ x < 2^(e+1)`
(found by doubling from 2^-63, which covers every value that can arise),
`rhe` rounds a rational to the nearest integer with ties to even, and
`rn53 x = rhe(x·2^(52-e))·2^(e-52)` is the double nearest to `x`.
`Math.floor` and the final `+ 1` are exact at these magnitudes. -/

def binExpAux (x : ℚ) : Nat → ℚ → ℤ → ℤ
  | 0, _, e => e
  | fuel + 1, p, e => if x < p then e else binExpAux x fuel (2 * p) (e + 1)

/-- The binade exponent of `x`: the `e` with `2^e ≤ x < 2^(e+1)`, for
`2^(-64) ≤ x < 2^65`. -/
def binExp (x : ℚ) : ℤ := binExpAux x 129 ((1 : ℚ) / 9223372036854775808) (-64)

/-- Round to the nearest integer, ties to even (the IEEE-754 default
rounding's tie rule). -/
def rhe (y : ℚ) : ℤ :=
  if 2 * (y - ⌊y⌋) < 1 then ⌊y⌋
  else if 1 < 2 * (y - ⌊y⌋) then ⌊y⌋ + 1
  else if ⌊y⌋ % 2 = 0 then ⌊y⌋ else ⌊y⌋ + 1

/-- The IEEE binary64 double nearest to the nonnegative rational `x` (as
an exact rational): the 53-bit significand `rhe (x·2^(52-e))` scaled back
by the binade exponent `e`.  Nonpositive inputs (only 0 can arise) map to
0. -/
def rn53 (x : ℚ) : ℚ :=
  if x ≤ 0 then 0
  else (rhe (x * (2 : ℚ) ^ (52 - binExp x)) : ℚ) * (2 : ℚ) ^ (binExp x - 52)

theorem binExpAux_spec (x : ℚ) :
    ∀ (fuel : Nat) (e : ℤ), (2 : ℚ) ^ e ≤ x → x < 2 ^ (e + (fuel : ℤ)) →
    (2 : ℚ) ^ (binExpAux x fuel (2 ^ (e + 1)) e) ≤ x ∧
      x < (2 : ℚ) ^ (binExpAux x fuel (2 ^ (e + 1)) e + 1) := by
  intro fuel
  induction fuel with
  | zero =>
    intro e h1 h2
    have he : e + ((0 : Nat) : ℤ) = e := by push_cast; ring
    rw [he] at h2
    exact absurd (h1.trans_lt h2) (lt_irrefl _)
  | succ fuel ih =>
    intro e h1 h2
    rw [binExpAux]
    by_cases hx : x < 2 ^ (e + 1)
    · rw [if_pos hx]
      exact ⟨h1, hx⟩
    · rw [if_neg hx]
      have hpw : (2 : ℚ) * 2 ^ (e + 1) = 2 ^ ((e + 1) + 1) := by
        rw [zpow_add₀ (by norm_num : (2 : ℚ) ≠ 0) (e + 1) 1]
        ring
      rw [hpw]
      have h2b : x < 2 ^ ((e + 1) + (fuel : ℤ)) := by
        have hee : e + ((fuel + 1 : Nat) : ℤ) = (e + 1) + (fuel : ℤ) := by
          push_cast
          ring
        rw [hee] at h2
        exact h2
      exact ih (e + 1) (not_lt.mp hx) h2b

theorem binExp_spec (x : ℚ) (hlo : (2 : ℚ) ^ (-64 : ℤ) ≤ x)
    (hhi : x < (2 : ℚ) ^ (65 : ℤ)) :
    (2 : ℚ) ^ binExp x ≤ x ∧ x < (2 : ℚ) ^ (binExp x + 1) := by
  have hp : ((1 : ℚ) / 9223372036854775808) = (2 : ℚ) ^ ((-64 : ℤ) + 1) := by
    norm_num
  have h2 : x < 2 ^ ((-64 : ℤ) + ((129 : Nat) : ℤ)) := by
    have he : ((-64 : ℤ) + ((129 : Nat) : ℤ)) = (65 : ℤ) := by
      norm_num
    rw [he]
    exact hhi
  have h := binExpAux_spec x 129 (-64) hlo h2
  unfold binExp
  rw [hp]
  exact h

theorem rhe_le (y : ℚ) : (rhe y : ℚ) ≤ y + 1 / 2 := by
  have hf1 : (⌊y⌋ : ℚ) ≤ y := Int.floor_le y
  have hf2 : y < ⌊y⌋ + 1 := Int.lt_floor_add_one y
  unfold rhe
  split_ifs with h1 h2 h3 <;> push_cast <;> linarith

theorem rhe_ge (y : ℚ) : y - 1 / 2 ≤ (rhe y : ℚ) := by
  have hf1 : (⌊y⌋ : ℚ) ≤ y := Int.floor_le y
  have hf2 : y < ⌊y⌋ + 1 := Int.lt_floor_add_one y
  unfold rhe
  split_ifs with h1 h2 h3 <;> push_cast <;> linarith

theorem rhe_nonneg (y : ℚ) (hy : 0 ≤ y) : 0 ≤ rhe y := by
  have h := Int.floor_nonneg.mpr hy
  unfold rhe
  split_ifs <;> omega

theorem rhe_intCast (n : ℤ) : rhe (n : ℚ) = n := by
  unfold rhe
  norm_num [Int.floor_intCast]

theorem rn53_nonneg (x : ℚ) : 0 ≤ rn53 x := by
  unfold rn53
  split_ifs with h
  · exact le_refl 0
  · have hx : 0 < x := lt_of_not_le h
    refine mul_nonneg ?_ (le_of_lt (by positivity))
    exact_mod_cast rhe_nonneg _ (by positivity)

theorem rn53_le (x : ℚ) (hlo : (2 : ℚ) ^ (-64 : ℤ) ≤ x)
    (hhi : x < (2 : ℚ) ^ (65 : ℤ)) : rn53 x ≤ x + x / 2 ^ 53 := by
  have hx0 : 0 < x := lt_of_lt_of_le (by positivity) hlo
  obtain ⟨h1, h2⟩ := binExp_spec x hlo hhi
  unfold rn53
  rw [if_neg (by linarith)]
  have hA : (0 : ℚ) < (2 : ℚ) ^ (binExp x - 52) := by positivity
  have hmul : (2 : ℚ) ^ (52 - binExp x) * (2 : ℚ) ^ (binExp x - 52) = 1 := by
    rw [← zpow_add₀ (by norm_num : (2 : ℚ) ≠ 0)]
    norm_num
  have key : (rhe (x * (2 : ℚ) ^ (52 - binExp x)) : ℚ) *
      (2 : ℚ) ^ (binExp x - 52) ≤
      x + (1 / 2) * (2 : ℚ) ^ (binExp x - 52) := by
    calc (rhe (x * (2 : ℚ) ^ (52 - binExp x)) : ℚ) * (2 : ℚ) ^ (binExp x - 52)
        ≤ (x * (2 : ℚ) ^ (52 - binExp x) + 1 / 2) *
            (2 : ℚ) ^ (binExp x - 52) :=
          mul_le_mul_of_nonneg_right (rhe_le _) (le_of_lt hA)
      _ = x * ((2 : ℚ) ^ (52 - binExp x) * (2 : ℚ) ^ (binExp x - 52)) +
            (1 / 2) * (2 : ℚ) ^ (binExp x - 52) := by ring
      _ = x + (1 / 2) * (2 : ℚ) ^ (binExp x - 52) := by
          rw [hmul]
          ring
  refine le_trans key ?_
  have h3 : (1 / 2 : ℚ) * (2 : ℚ) ^ (binExp x - 52) =
      (2 : ℚ) ^ binExp x / 2 ^ 53 := by
    rw [zpow_sub₀ (by norm_num : (2 : ℚ) ≠ 0)]
    norm_num
    ring
  rw [h3]
  gcongr

theorem rn53_ge (x : ℚ) (hlo : (2 : ℚ) ^ (-64 : ℤ) ≤ x)
    (hhi : x < (2 : ℚ) ^ (65 : ℤ)) : x - x / 2 ^ 53 ≤ rn53 x := by
  have hx0 : 0 < x := lt_of_lt_of_le (by positivity) hlo
  obtain ⟨h1, h2⟩ := binExp_spec x hlo hhi
  unfold rn53
  rw [if_neg (by linarith)]
  have hA : (0 : ℚ) < (2 : ℚ) ^ (binExp x - 52) := by positivity
  have hmul : (2 : ℚ) ^ (52 - binExp x) * (2 : ℚ) ^ (binExp x - 52) = 1 := by
    rw [← zpow_add₀ (by norm_num : (2 : ℚ) ≠ 0)]
    norm_num
  have key : x - (1 / 2) * (2 : ℚ) ^ (binExp x - 52) ≤
      (rhe (x * (2 : ℚ) ^ (52 - binExp x)) : ℚ) *
        (2 : ℚ) ^ (binExp x - 52) := by
    calc x - (1 / 2) * (2 : ℚ) ^ (binExp x - 52)
        = (x * (2 : ℚ) ^ (52 - binExp x) - 1 / 2) *
            (2 : ℚ) ^ (binExp x - 52) := by
          rw [sub_mul, mul_assoc, hmul]
          ring
      _ ≤ (rhe (x * (2 : ℚ) ^ (52 - binExp x)) : ℚ) *
            (2 : ℚ) ^ (binExp x - 52) :=
          mul_le_mul_of_nonneg_right (rhe_ge _) (le_of_lt hA)
  refine le_trans ?_ key
  have h3 : (1 / 2 : ℚ) * (2 : ℚ) ^ (binExp x - 52) =
      (2 : ℚ) ^ binExp x / 2 ^ 53 := by
    rw [zpow_sub₀ (by norm_num : (2 : ℚ) ≠ 0)]
    norm_num
    ring
  rw [h3]
  gcongr

theorem rn53_intCast (n : ℤ) (h1 : 1 ≤ n) (h2 : n ≤ 32768) :
    rn53 (n : ℚ) = n := by
  have hx0 : (0 : ℚ) < n := by exact_mod_cast h1
  have hlo : (2 : ℚ) ^ (-64 : ℤ) ≤ (n : ℚ) := by
    refine le_trans ?_ (by exact_mod_cast h1 : (1 : ℚ) ≤ n)
    norm_num
  have hhi : (n : ℚ) < (2 : ℚ) ^ (65 : ℤ) := by
    refine lt_of_le_of_lt (by exact_mod_cast h2 : (n : ℚ) ≤ 32768) ?_
    norm_num
  obtain ⟨hb1, hb2⟩ := binExp_spec (n : ℚ) hlo hhi
  have he0 : 0 ≤ binExp (n : ℚ) := by
    by_contra hneg
    have hle : binExp (n : ℚ) + 1 ≤ 0 := by omega
    have : (2 : ℚ) ^ (binExp (n : ℚ) + 1) ≤ 2 ^ (0 : ℤ) :=
      zpow_le_zpow_right₀ (by norm_num) hle
    rw [zpow_zero] at this
    have hlt : (n : ℚ) < 1 := lt_of_lt_of_le hb2 this
    have h1q : (1 : ℚ) ≤ (n : ℚ) := by exact_mod_cast h1
    linarith
  have he16 : binExp (n : ℚ) ≤ 16 := by
    by_contra hgt
    have hle : (17 : ℤ) ≤ binExp (n : ℚ) := by omega
    have h17 : (2 : ℚ) ^ (17 : ℤ) ≤ 2 ^ binExp (n : ℚ) :=
      zpow_le_zpow_right₀ (by norm_num) hle
    have : (2 : ℚ) ^ (17 : ℤ) ≤ (n : ℚ) := le_trans h17 hb1
    have h2q : (n : ℚ) ≤ 32768 := by exact_mod_cast h2
    norm_num at this
    linarith
  have hk : (((52 - binExp (n : ℚ)).toNat : ℤ)) = 52 - binExp (n : ℚ) :=
    Int.toNat_of_nonneg (by omega)
  have hy : (n : ℚ) * (2 : ℚ) ^ (52 - binExp (n : ℚ)) =
      ((n * 2 ^ (52 - binExp (n : ℚ)).toNat : ℤ) : ℚ) := by
    push_cast
    rw [← zpow_natCast (2 : ℚ) (52 - binExp (n : ℚ)).toNat, hk]
  unfold rn53
  rw [if_neg (by linarith), hy, rhe_intCast]
  push_cast
  rw [← zpow_natCast (2 : ℚ) (52 - binExp (n : ℚ)).toNat, hk, mul_assoc,
    ← zpow_add₀ (by norm_num : (2 : ℚ) ≠ 0)]
  have : 52 - binExp (n : ℚ) + (binExp (n : ℚ) - 52) = 0 := by ring
  rw [this, zpow_zero, mul_one]

/-- RANDOM (VAR 0x7), part_000 lines 794-807.  A non-positive argument
reseeds — with the host entropy value (standing for the
`Math.random()`-derived 32-bit value) when the argument is 0, with the
JavaScript `>>> 0` conversion of the argument (its value mod 2^32) when
negative — and stores 0.  A positive argument advances the LCG and stores
`Math.floor((this.seed / 0xFFFFFFFF) * range) + 1`: the double-precision
division and multiplication are modelled by `rn53` (round to nearest,
ties to even), `Math.floor` and `+ 1` are exact at these magnitudes.
Returns the new seed together with the state after the store. -/
def zRANDOM (s : State) (seed entropy : Nat) (range : Int) :
    Option (Nat × State) :=
  if range ≤ 0 then
    let seed2 := if range = 0 then entropy else (range % 4294967296).toNat
    (storeVal s 0).map (fun s2 => (seed2, s2))
  else
    let seed2 := lcgNext seed
    (storeVal s
      (⌊rn53 (rn53 ((seed2 : ℚ) / 4294967295) * (range : ℚ))⌋ + 1)).map
      (fun s2 => (seed2, s2))

/-- C7 (amended).  RANDOM with a non-positive argument reseeds (host
entropy for 0, the argument's value mod 2^32 — its unsigned reading — when
negative) and stores 0.  With a positive argument `r` (a positive signed
16-bit operand, so `r ≤ 32767`) it advances the LCG
`s ← 1664525·s + 1013904223 (mod 2^32)` and stores
`Math.floor((s / 0xFFFFFFFF) · r) + 1` computed in IEEE binary64
arithmetic, each operation rounding to nearest with ties to even (the
source divides by `0xFFFFFFFF` = 2^32 − 1, not by 2^32): that value lies
in `[1..r]` whenever the advanced seed is below 2^32 − 1, and is `r + 1`
when the advanced seed equals 2^32 − 1. -/
theorem zrandom_spec (s : State) (seed entropy : Nat) (range : Int) (x : Nat)
    (hx : s.mem[s.pc]? = some x)
    (hloc : x ≠ 0 → x < 16 → ∃ f rest, s.cs = f :: rest ∧ x - 1 < f.locals.length)
    (hglob : 16 ≤ x → s.globals + 2 * x + 2 ≤ s.mem.length)
    (hr16 : range < 32768) :
    (range ≤ 0 → ∃ s2,
      zRANDOM s seed entropy range =
        some ((if range = 0 then entropy else (range % 4294967296).toNat), s2) ∧
      destView s2 x = some 0) ∧
    (0 < range →
      ∃ s2 v,
        v = ⌊rn53 (rn53 ((lcgNext seed : ℚ) / 4294967295) * (range : ℚ))⌋ + 1 ∧
        zRANDOM s seed entropy range = some (lcgNext seed, s2) ∧
        destView s2 x = some (if x = 0 then v else toInt16 v) ∧
        1 ≤ v ∧
        (lcgNext seed ≠ 4294967295 → v ≤ range) ∧
        (lcgNext seed = 4294967295 → v = range + 1)) := by
  constructor
  · intro hle
    obtain ⟨s2, h1, h2, _⟩ := storeVal_spec s 0 x hx hloc hglob
    refine ⟨s2, ?_, ?_⟩
    · rw [zRANDOM, if_pos hle, h1]
      rfl
    · rw [h2]
      have : (if x = 0 then (0 : Int) else toInt16 0) = 0 := by
        split
        · rfl
        · norm_num [toInt16]
      rw [this]
  · intro hpos
    obtain ⟨s2, h1, h2, _⟩ := storeVal_spec s
      (⌊rn53 (rn53 ((lcgNext seed : ℚ) / 4294967295) * (range : ℚ))⌋ + 1)
      x hx hloc hglob
    have hseedlt : lcgNext seed < 4294967296 := Nat.mod_lt _ (by norm_num)
    have hfl0 : 0 ≤ ⌊rn53 (rn53 ((lcgNext seed : ℚ) / 4294967295) *
        (range : ℚ))⌋ := Int.floor_nonneg.mpr (rn53_nonneg _)
    refine ⟨s2, _, rfl, ?_, h2, by omega, ?_, ?_⟩
    · simp only [zRANDOM, if_neg (show ¬range ≤ 0 by omega)]
      rw [h1]
      rfl
    · -- the advanced seed is below 2^32 − 1: the value is at most the range
      intro hne
      have hSle : lcgNext seed ≤ 4294967294 := by omega
      by_cases hS0 : lcgNext seed = 0
      · rw [hS0]
        have hq : rn53 (((0 : Nat) : ℚ) / 4294967295) = 0 := by
          unfold rn53
          rw [if_pos (by norm_num)]
        rw [hq]
        have hp : rn53 (0 * (range : ℚ)) = 0 := by
          unfold rn53
          rw [if_pos (by norm_num)]
        rw [hp]
        norm_num
        omega
      · have hS1 : 1 ≤ lcgNext seed := by omega
        have hr1 : (1 : ℚ) ≤ (range : ℚ) := by exact_mod_cast hpos
        have hx_ge : (1 : ℚ) / 4294967295 ≤ (lcgNext seed : ℚ) / 4294967295 := by
          gcongr
          exact_mod_cast hS1
        have hx_ub : (lcgNext seed : ℚ) / 4294967295 ≤
            4294967294 / 4294967295 := by
          gcongr
          exact_mod_cast hSle
        have hx_lo : (2 : ℚ) ^ (-64 : ℤ) ≤ (lcgNext seed : ℚ) / 4294967295 :=
          le_trans (by norm_num) hx_ge
        have hx_hi : (lcgNext seed : ℚ) / 4294967295 < (2 : ℚ) ^ (65 : ℤ) :=
          lt_of_le_of_lt hx_ub (by norm_num)
        have hq_le := rn53_le _ hx_lo hx_hi
        have hq_ge := rn53_ge _ hx_lo hx_hi
        have hq0 : 0 ≤ rn53 ((lcgNext seed : ℚ) / 4294967295) := rn53_nonneg _
        have hq_ub : rn53 ((lcgNext seed : ℚ) / 4294967295) ≤
            1 - 1 / 8589934592 := by
          refine le_trans hq_le ?_
          have hstep : (lcgNext seed : ℚ) / 4294967295 +
              ((lcgNext seed : ℚ) / 4294967295) / 2 ^ 53 ≤
              4294967294 / 4294967295 + (4294967294 / 4294967295) / 2 ^ 53 := by
            gcongr
          refine le_trans hstep (by norm_num)
        have hq_lo : (2 : ℚ) ^ (-64 : ℤ) ≤
            rn53 ((lcgNext seed : ℚ) / 4294967295) := by
          refine le_trans ?_ hq_ge
          have hone : (1 : ℚ) / 4294967295 - (1 / 4294967295) / 2 ^ 53 ≤
              (lcgNext seed : ℚ) / 4294967295 -
                ((lcgNext seed : ℚ) / 4294967295) / 2 ^ 53 := by
            have hco : (0 : ℚ) ≤ 1 - 1 / 2 ^ 53 := by norm_num
            have := mul_le_mul_of_nonneg_right hx_ge hco
            calc (1 : ℚ) / 4294967295 - (1 / 4294967295) / 2 ^ 53
                = (1 / 4294967295) * (1 - 1 / 2 ^ 53) := by ring
              _ ≤ ((lcgNext seed : ℚ) / 4294967295) * (1 - 1 / 2 ^ 53) := this
              _ = (lcgNext seed : ℚ) / 4294967295 -
                  ((lcgNext seed : ℚ) / 4294967295) / 2 ^ 53 := by ring
          refine le_trans (by norm_num) hone
        have hqr_lo : (2 : ℚ) ^ (-64 : ℤ) ≤
            rn53 ((lcgNext seed : ℚ) / 4294967295) * (range : ℚ) :=
          le_trans hq_lo (le_mul_of_one_le_right hq0 hr1)
        have hqr_hi : rn53 ((lcgNext seed : ℚ) / 4294967295) * (range : ℚ) <
            (2 : ℚ) ^ (65 : ℤ) := by
          have hrq : (range : ℚ) < 32768 := by exact_mod_cast hr16
          have h1q : rn53 ((lcgNext seed : ℚ) / 4294967295) ≤ 1 :=
            le_trans hq_ub (by norm_num)
          have := mul_le_of_le_one_left (le_trans zero_le_one hr1) h1q
          refine lt_of_le_of_lt this (lt_trans hrq (by norm_num))
        have hp_le := rn53_le _ hqr_lo hqr_hi
        have hr0 : (0 : ℚ) < (range : ℚ) := by exact_mod_cast hpos
        have hp_lt : rn53 (rn53 ((lcgNext seed : ℚ) / 4294967295) *
            (range : ℚ)) < (range : ℚ) := by
          refine lt_of_le_of_lt hp_le ?_
          have e2 : rn53 ((lcgNext seed : ℚ) / 4294967295) * (1 + 1 / 2 ^ 53) ≤
              (1 - 1 / 8589934592) * (1 + 1 / 2 ^ 53) :=
            mul_le_mul_of_nonneg_right hq_ub (by norm_num)
          calc rn53 ((lcgNext seed : ℚ) / 4294967295) * (range : ℚ) +
                rn53 ((lcgNext seed : ℚ) / 4294967295) * (range : ℚ) / 2 ^ 53
              = rn53 ((lcgNext seed : ℚ) / 4294967295) * (1 + 1 / 2 ^ 53) *
                  (range : ℚ) := by ring
            _ ≤ (1 - 1 / 8589934592) * (1 + 1 / 2 ^ 53) * (range : ℚ) :=
                mul_le_mul_of_nonneg_right e2 (le_of_lt hr0)
            _ < 1 * (range : ℚ) :=
                mul_lt_mul_of_pos_right (by norm_num) hr0
            _ = (range : ℚ) := one_mul _
        have := Int.floor_lt.mpr (by exact_mod_cast hp_lt)
        omega
    · -- the advanced seed equals 2^32 − 1: the value is exactly range + 1
      intro heq
      rw [heq]
      have hd : ((4294967295 : Nat) : ℚ) / 4294967295 = 1 := by norm_num
      rw [hd]
      have h1 : rn53 (1 : ℚ) = 1 := by
        have := rn53_intCast 1 (by norm_num) (by norm_num)
        simpa using this
      rw [h1, one_mul]
      have h2q : rn53 ((range : ℚ)) = (range : ℚ) := by
        have := rn53_intCast range hpos (by omega)
        exact this
      rw [h2q, Int.floor_intCast]

set_option maxRecDepth 8000 in
/-- C7 witness: RANDOM(10) from seed 1 stores a value in `[1..10]` (here 3)
and advances the seed to 1015568748. -/
theorem zrandom_spec_witness :
    ∃ s2, zRANDOM (State.mk [0] false 0 [] [] 0) 1 0 10 = some (1015568748, s2) ∧
      destView s2 0 = some 3 := by
  have h := (zrandom_spec (State.mk [0] false 0 [] [] 0) 1 0 10 0 (by rfl)
    (fun h _ => absurd rfl h) (fun h => absurd h (by decide)) (by decide)).2
    (by decide)
  obtain ⟨s2, v, hv, h1, h2, _⟩ := h
  subst hv
  refine ⟨s2, ?_, ?_⟩
  · rw [h1]
    rfl
  · rw [h2]
    norm_num [lcgNext, rn53, binExp, binExpAux, rhe]

set_option maxRecDepth 8000 in
/-- C7 counterexample: from the seed 653637408 the LCG advances to
2^32 − 1, and RANDOM(1) stores 2 — outside the claimed range `[1..1]`, and
different from the claimed formula `floor(s/2^32 · 1) + 1 = 1` (the source
divides by `0xFFFFFFFF` = 2^32 − 1, not by 2^32; at this seed the doubles
compute `(s/(2^32−1))·1 = 1.0` exactly). -/
theorem zrandom_counterexample :
    zRANDOM (State.mk [0] false 0 [] [] 0) 653637408 0 1 =
      some (4294967295, State.mk [0] false 0 [2] [] 1) ∧
    4294967295 * 1 / 4294967295 + 1 = 2 ∧
    4294967295 * 1 / 4294967296 + 1 = 1 ∧
    ¬(2 ≤ 1) := by
  refine ⟨?_, by norm_num, by norm_num, by norm_num⟩
  have hv : (⌊rn53 (rn53 ((lcgNext 653637408 : ℚ) / 4294967295) *
      ((1 : ℤ) : ℚ))⌋ + 1 : ℤ) = 2 := by
    norm_num [lcgNext, rn53, binExp, binExpAux, rhe]
  simp only [zRANDOM, if_neg (show ¬(1 : ℤ) ≤ 0 by norm_num), hv]
  decide

/-! ## Save/restore codec (`serialize`, part_000 lines 878-899, and
`deserialize`, lines 124-178)

The save blob's multi-byte fields are written and read through a DataView
in default big-endian order (the byte-swap flag applies only to the
story's working memory). -/

/-- The two big-endian bytes `DataView.setUint16` stores (the value is
taken mod 2^16). -/
def u16be (n : Nat) : List Nat := [n / 256 % 256, n % 256]

/-- The three low-order big-endian bytes of a 24-bit quantity. -/
def u24be (n : Nat) : List Nat := [n / 65536 % 256, n / 256 % 256, n % 256]

/-- The four big-endian bytes `DataView.setUint32` stores (mod 2^32). -/
def u32be (n : Nat) : List Nat :=
  [n / 16777216 % 256, n / 65536 % 256, n / 256 % 256, n % 256]

/-- The two big-endian bytes `DataView.setInt16` stores for a signed
value: the bytes of its 16-bit unsigned reduction. -/
def i16be (v : Int) : List Nat := u16be (toUint16 v)

/-- One frame's encoding (serialize, part_000 lines 890-896): `setUint32`
writes the saved PC, then `setUint8` at the same base immediately
overwrites the top byte with the locals count — so the frame header is the
locals count followed by the PC's low 24 bits — then the saved data-stack
length, the saved data-stack entries, and the locals. -/
def frameBytes (f : Frame) : List Nat :=
  [f.locals.length % 256] ++ u24be f.pc ++ u16be f.ds.length
    ++ f.ds.flatMap i16be ++ f.locals.flatMap i16be

/-- `serialize(ds, cs, pc)`: the first PURBOT (`getu(14)`) bytes of
working memory, then the PC as 32-bit big-endian, the call-stack depth and
data-stack length as 16-bit, the data-stack entries as signed 16-bit, then
each frame per `frameBytes`.  The Uint8Array allocation (line 881-882)
sizes the blob exactly, so the concatenation reproduces every written
byte; `none` models the RangeError of `getu(14)` or of viewing more bytes
than memory holds. -/
def serialize (mem : List Nat) (bsw : Bool) (ds : List Int) (cs : List Frame)
    (pc : Nat) : Option (List Nat) := do
  let purbot ← getu? mem bsw 14
  if purbot ≤ mem.length then
    some (mem.take purbot ++ u32be pc ++ u16be cs.length ++ u16be ds.length
      ++ ds.flatMap i16be ++ cs.flatMap frameBytes)
  else none

/-- `getUint16` on the save blob (big-endian, no byte-swap): `none` when
out of bounds (RangeError, caught by deserialize). -/
def rdU16? (blob : List Nat) (e : Nat) : Option Nat :=
  match blob[e]?, blob[e + 1]? with
  | some a, some b => some (a * 256 + b)
  | _, _ => none

/-- `getInt16` on the save blob. -/
def rdI16? (blob : List Nat) (e : Nat) : Option Int :=
  (rdU16? blob e).map sign16

/-- `getUint32` on the save blob. -/
def rdU32? (blob : List Nat) (e : Nat) : Option Nat :=
  match blob[e]?, blob[e + 1]?, blob[e + 2]?, blob[e + 3]? with
  | some a, some b, some c, some d =>
    some (a * 16777216 + b * 65536 + c * 256 + d)
  | _, _, _, _ => none

/-- `getUint24` (deserialize lines 140-144): the source computes
`getUint32(e−1) & 0xFFFFFF`, i.e. the three bytes at `e`, `e+1`, `e+2`
big-endian with the byte at `e−1` masked away.  At every call site `e ≥ 1`
and the RangeError condition of `getUint32(e−1)` (bytes `e−1..e+2` in
range) coincides with these three bytes being in range, so the model reads
just the three contributing bytes. -/
def rdU24? (blob : List Nat) (e : Nat) : Option Nat :=
  match blob[e]?, blob[e + 1]?, blob[e + 2]? with
  | some a, some b, some c => some (a * 65536 + b * 256 + c)
  | _, _, _ => none

/-- `Array.from({length: n}, getInt16)`: read `n` consecutive signed
16-bit values, returning them with the position after the last. -/
def rdI16s? (blob : List Nat) : Nat → Nat → Option (List Int × Nat)
  | 0, e => some ([], e)
  | n + 1, e => do
    let v ← rdI16? blob e
    let (vs, e2) ← rdI16s? blob n (e + 2)
    some (v :: vs, e2)

/-- The frame-reading loop of deserialize (lines 165-172): per frame, a
locals count via `getUint8` (an out-of-range `getUint8` yields `undefined`,
making a length-0 `Int16Array`, but the following `getUint24` then reads
past the end and throws, so modelling the out-of-range byte as a failure is
observationally equal), the 24-bit saved PC, the saved data-stack length
and entries, then the locals. -/
def rdFrames? (blob : List Nat) : Nat → Nat → Option (List Frame × Nat)
  | 0, e => some ([], e)
  | n + 1, e => do
    let cnt ← blob[e]?
    let fpc ← rdU24? blob (e + 1)
    let dslen ← rdU16? blob (e + 4)
    let (fds, e2) ← rdI16s? blob dslen (e + 6)
    let (flocals, e3) ← rdI16s? blob cnt e2
    let (fs, e4) ← rdFrames? blob n e3
    some (Frame.mk fpc fds flocals :: fs, e4)

/-- The parsing phase of `deserialize(ar)`: PURBOT from the *working*
memory's header word 14, the ZORKID byte check (`ar[2] != this.mem[2]`,
JavaScript loose inequality, under which two out-of-range reads compare
equal), then PC, call-stack depth, data-stack length and entries, and the
frames.  The final bound is the RangeError condition of
`new Uint8Array(ar.buffer, 0, purbot)` and of `this.mem.set(...)`
(lines 173); any failure anywhere is caught and yields `none`. -/
def deserializeParse (mem : List Nat) (bsw : Bool) (blob : List Nat) :
    Option (List Int × List Frame × Nat × Nat) := do
  let purbot ← getu? mem bsw 14
  if blob[2]? = mem[2]? ∧ blob[3]? = mem[3]? then
    let pc ← rdU32? blob purbot
    let cslen ← rdU16? blob (purbot + 4)
    let dslen ← rdU16? blob (purbot + 6)
    let (ds, e1) ← rdI16s? blob dslen (purbot + 8)
    let (cs, _) ← rdFrames? blob cslen e1
    if purbot ≤ blob.length ∧ purbot ≤ mem.length then
      some (ds, cs, pc, purbot)
    else none
  else none

/-- `deserialize(ar)` as a state transformer on the working memory: on a
fully successful parse, the dynamic-memory prefix is overwritten from the
blob (`this.mem.set(new Uint8Array(ar.buffer, 0, purbot))`, the *last*
step) and the parsed continuation is returned; on any failure `null` is
returned and memory is untouched. -/
def deserialize (mem : List Nat) (bsw : Bool) (blob : List Nat) :
    Option (List Int × List Frame × Nat) × List Nat :=
  match deserializeParse mem bsw blob with
  | none => (none, mem)
  | some (ds, cs, pc, purbot) =>
    (some (ds, cs, pc), blob.take purbot ++ mem.drop purbot)

theorem drop_chunk (blob : List Nat) (e : Nat) (chunk rest : List Nat)
    (h : blob.drop e = chunk ++ rest) :
    blob.drop (e + chunk.length) = rest := by
  rw [← List.drop_drop, h, List.drop_left]

theorem byteAt_of_drop (blob : List Nat) (e b : Nat) (rest : List Nat)
    (h : blob.drop e = b :: rest) : blob[e]? = some b := by
  have h0 := List.getElem?_drop blob e 0
  rw [h] at h0
  simpa using h0.symm

theorem toInt16_eq_self (v : Int) (h1 : -32768 ≤ v) (h2 : v < 32768) :
    toInt16 v = v := by
  simp only [toInt16]
  omega

theorem rdU16_of_drop (blob : List Nat) (e n : Nat) (rest : List Nat)
    (h : blob.drop e = u16be n ++ rest) (hn : n < 65536) :
    rdU16? blob e = some n := by
  have h0 : blob[e]? = some (n / 256 % 256) := by
    have h9 := List.getElem?_drop blob e 0
    rw [h] at h9
    simpa [u16be] using h9.symm
  have h1 : blob[e + 1]? = some (n % 256) := by
    have h9 := List.getElem?_drop blob e 1
    rw [h] at h9
    simpa [u16be] using h9.symm
  simp only [rdU16?]
  rw [h0, h1]
  simp only [Option.some.injEq]
  omega

theorem rdU24_of_drop (blob : List Nat) (e n : Nat) (rest : List Nat)
    (h : blob.drop e = u24be n ++ rest) (hn : n < 16777216) :
    rdU24? blob e = some n := by
  have h0 : blob[e]? = some (n / 65536 % 256) := by
    have h9 := List.getElem?_drop blob e 0
    rw [h] at h9
    simpa [u24be] using h9.symm
  have h1 : blob[e + 1]? = some (n / 256 % 256) := by
    have h9 := List.getElem?_drop blob e 1
    rw [h] at h9
    simpa [u24be] using h9.symm
  have h2 : blob[e + 2]? = some (n % 256) := by
    have h9 := List.getElem?_drop blob e 2
    rw [h] at h9
    simpa [u24be] using h9.symm
  simp only [rdU24?]
  rw [h0, h1, h2]
  simp only [Option.some.injEq]
  omega

theorem rdU32_of_drop (blob : List Nat) (e n : Nat) (rest : List Nat)
    (h : blob.drop e = u32be n ++ rest) (hn : n < 4294967296) :
    rdU32? blob e = some n := by
  have h0 : blob[e]? = some (n / 16777216 % 256) := by
    have h9 := List.getElem?_drop blob e 0
    rw [h] at h9
    simpa [u32be] using h9.symm
  have h1 : blob[e + 1]? = some (n / 65536 % 256) := by
    have h9 := List.getElem?_drop blob e 1
    rw [h] at h9
    simpa [u32be] using h9.symm
  have h2 : blob[e + 2]? = some (n / 256 % 256) := by
    have h9 := List.getElem?_drop blob e 2
    rw [h] at h9
    simpa [u32be] using h9.symm
  have h3 : blob[e + 3]? = some (n % 256) := by
    have h9 := List.getElem?_drop blob e 3
    rw [h] at h9
    simpa [u32be] using h9.symm
  simp only [rdU32?]
  rw [h0, h1, h2, h3]
  simp only [Option.some.injEq]
  omega

theorem rdI16_of_drop (blob : List Nat) (e : Nat) (v : Int) (rest : List Nat)
    (h : blob.drop e = i16be v ++ rest) (h1 : -32768 ≤ v) (h2 : v < 32768) :
    rdI16? blob e = some v := by
  have hu : rdU16? blob e = some (toUint16 v) := by
    refine rdU16_of_drop blob e (toUint16 v) rest (by simpa [i16be] using h) ?_
    simp only [toUint16]
    omega
  rw [rdI16?, hu]
  show some (sign16 (toUint16 v)) = some v
  rw [sign16_toUint16, toInt16_eq_self v h1 h2]

theorem rdI16s_of_drop (blob : List Nat) (ds : List Int) :
    ∀ (e : Nat) (rest : List Nat),
    blob.drop e = ds.flatMap i16be ++ rest →
    (∀ v ∈ ds, -32768 ≤ v ∧ v < 32768) →
    rdI16s? blob ds.length e = some (ds, e + 2 * ds.length) ∧
      blob.drop (e + 2 * ds.length) = rest := by
  induction ds with
  | nil =>
    intro e rest h _
    constructor
    · simp [rdI16s?]
    · simpa using h
  | cons v ds ih =>
    intro e rest h hv
    have hvr := hv v (List.mem_cons_self v ds)
    have hflat : blob.drop e = i16be v ++ (ds.flatMap i16be ++ rest) := by
      simpa [List.flatMap_cons, List.append_assoc] using h
    have h1 : rdI16? blob e = some v := rdI16_of_drop blob e v _ hflat hvr.1 hvr.2
    have h2 : blob.drop (e + 2) = ds.flatMap i16be ++ rest := by
      have h9 := drop_chunk blob e (i16be v) _ hflat
      simpa [i16be, u16be] using h9
    obtain ⟨h3, h4⟩ := ih (e + 2) rest h2 (fun w hw => hv w (List.mem_cons_of_mem _ hw))
    have harith : e + 2 + 2 * ds.length = e + 2 * (ds.length + 1) := by ring
    constructor
    · simp only [List.length_cons, rdI16s?, h1, Option.bind_eq_bind, Option.some_bind, h3]
      rw [harith]
    · rw [List.length_cons, ← harith]
      exact h4

theorem rdFrames_of_drop (blob : List Nat) (cs : List Frame) :
    ∀ (e : Nat) (rest : List Nat),
    blob.drop e = cs.flatMap frameBytes ++ rest →
    (∀ f ∈ cs, f.pc < 16777216 ∧ f.ds.length < 65536 ∧ f.locals.length < 256 ∧
      (∀ v ∈ f.ds, -32768 ≤ v ∧ v < 32768) ∧
      (∀ v ∈ f.locals, -32768 ≤ v ∧ v < 32768)) →
    ∃ e2, rdFrames? blob cs.length e = some (cs, e2) ∧ blob.drop e2 = rest := by
  induction cs with
  | nil =>
    intro e rest h _
    exact ⟨e, by simp [rdFrames?], by simpa using h⟩
  | cons f cs ih =>
    intro e rest h hf
    obtain ⟨hfpc, hfds, hfloc, hfdsv, hflocv⟩ := hf f (List.mem_cons_self f cs)
    have hflat : blob.drop e = [f.locals.length % 256] ++ (u24be f.pc ++
        (u16be f.ds.length ++ (f.ds.flatMap i16be ++ (f.locals.flatMap i16be ++
          (cs.flatMap frameBytes ++ rest))))) := by
      simpa [frameBytes, List.flatMap_cons, List.append_assoc] using h
    have hcnt : blob[e]? = some f.locals.length := by
      have h9 := byteAt_of_drop blob e (f.locals.length % 256) _ (by simpa using hflat)
      rwa [Nat.mod_eq_of_lt hfloc] at h9
    have d1 : blob.drop (e + 1) = u24be f.pc ++ (u16be f.ds.length ++
        (f.ds.flatMap i16be ++ (f.locals.flatMap i16be ++
          (cs.flatMap frameBytes ++ rest)))) := by
      have h9 := drop_chunk blob e [f.locals.length % 256] _ hflat
      simpa using h9
    have hpcr : rdU24? blob (e + 1) = some f.pc := rdU24_of_drop blob (e + 1) f.pc _ d1 hfpc
    have d2 : blob.drop (e + 4) = u16be f.ds.length ++
        (f.ds.flatMap i16be ++ (f.locals.flatMap i16be ++
          (cs.flatMap frameBytes ++ rest))) := by
      have h9 := drop_chunk blob (e + 1) (u24be f.pc) _ d1
      have h8 : e + 1 + (u24be f.pc).length = e + 4 := by simp [u24be]
      rwa [h8] at h9
    have hdsl : rdU16? blob (e + 4) = some f.ds.length :=
      rdU16_of_drop blob (e + 4) f.ds.length _ d2 hfds
    have d3 : blob.drop (e + 6) = f.ds.flatMap i16be ++ (f.locals.flatMap i16be ++
        (cs.flatMap frameBytes ++ rest)) := by
      have h9 := drop_chunk blob (e + 4) (u16be f.ds.length) _ d2
      have h8 : e + 4 + (u16be f.ds.length).length = e + 6 := by simp [u16be]
      rwa [h8] at h9
    obtain ⟨hds1, hds2⟩ := rdI16s_of_drop blob f.ds (e + 6) _ d3 hfdsv
    obtain ⟨hloc1, hloc2⟩ :=
      rdI16s_of_drop blob f.locals (e + 6 + 2 * f.ds.length) _ hds2 hflocv
    obtain ⟨e4, hrest1, hrest2⟩ :=
      ih (e + 6 + 2 * f.ds.length + 2 * f.locals.length) rest hloc2
        (fun g hg => hf g (List.mem_cons_of_mem _ hg))
    refine ⟨e4, ?_, hrest2⟩
    simp only [List.length_cons, rdFrames?, hcnt, hpcr, hdsl, hds1, hloc1, hrest1,
      Option.bind_eq_bind, Option.some_bind]

/-- C1.  Serialize-then-deserialize on the same image is the identity:
for every well-formed machine state — 16-bit data-stack and locals values,
16-bit stack depths, a byte-sized locals count, a 32-bit main PC, 24-bit
frame PCs, and a PURBOT header word of at least 4 covering at most the
memory — deserializing the serialized blob succeeds and returns the same
data stack, call stack and PC, leaving memory (in particular its PURBOT
prefix) identical. -/
theorem serialize_deserialize_roundtrip (mem : List Nat) (bsw : Bool)
    (ds : List Int) (cs : List Frame) (pc : Nat) (purbot : Nat)
    (hpb : getu? mem bsw 14 = some purbot)
    (h4 : 4 ≤ purbot) (hlen : purbot ≤ mem.length)
    (hpc : pc < 4294967296)
    (hcs : cs.length < 65536) (hds : ds.length < 65536)
    (hdsv : ∀ v ∈ ds, -32768 ≤ v ∧ v < 32768)
    (hfr : ∀ f ∈ cs, f.pc < 16777216 ∧ f.ds.length < 65536 ∧
      f.locals.length < 256 ∧ (∀ v ∈ f.ds, -32768 ≤ v ∧ v < 32768) ∧
      (∀ v ∈ f.locals, -32768 ≤ v ∧ v < 32768)) :
    ∃ blob, serialize mem bsw ds cs pc = some blob ∧
      deserialize mem bsw blob = (some (ds, cs, pc), mem) := by
  set B : List Nat := mem.take purbot ++ u32be pc ++ u16be cs.length ++
    u16be ds.length ++ ds.flatMap i16be ++ cs.flatMap frameBytes with hBdef
  have hser : serialize mem bsw ds cs pc = some B := by
    rw [serialize, hpb]
    simp only [Option.bind_eq_bind, Option.some_bind]
    rw [if_pos hlen]
  have hpre : (mem.take purbot).length = purbot := by
    rw [List.length_take]
    omega
  have hBassoc : B = mem.take purbot ++ (u32be pc ++ (u16be cs.length ++
      (u16be ds.length ++ (ds.flatMap i16be ++ cs.flatMap frameBytes)))) := by
    simp [hBdef, List.append_assoc]
  have d0 : B.drop purbot = u32be pc ++ (u16be cs.length ++
      (u16be ds.length ++ (ds.flatMap i16be ++ cs.flatMap frameBytes))) := by
    have h9 := List.drop_left (mem.take purbot) (u32be pc ++ (u16be cs.length ++
      (u16be ds.length ++ (ds.flatMap i16be ++ cs.flatMap frameBytes))))
    rw [hpre, ← hBassoc] at h9
    exact h9
  have hrd32 : rdU32? B purbot = some pc := rdU32_of_drop B purbot pc _ d0 hpc
  have d1 : B.drop (purbot + 4) = u16be cs.length ++
      (u16be ds.length ++ (ds.flatMap i16be ++ cs.flatMap frameBytes)) := by
    have h9 := drop_chunk B purbot (u32be pc) _ d0
    have h8 : purbot + (u32be pc).length = purbot + 4 := by simp [u32be]
    rwa [h8] at h9
  have hrdcs : rdU16? B (purbot + 4) = some cs.length :=
    rdU16_of_drop B (purbot + 4) cs.length _ d1 hcs
  have d2 : B.drop (purbot + 6) = u16be ds.length ++
      (ds.flatMap i16be ++ cs.flatMap frameBytes) := by
    have h9 := drop_chunk B (purbot + 4) (u16be cs.length) _ d1
    have h8 : purbot + 4 + (u16be cs.length).length = purbot + 6 := by simp [u16be]
    rwa [h8] at h9
  have hrdds : rdU16? B (purbot + 6) = some ds.length :=
    rdU16_of_drop B (purbot + 6) ds.length _ d2 hds
  have d3 : B.drop (purbot + 8) = ds.flatMap i16be ++ cs.flatMap frameBytes := by
    have h9 := drop_chunk B (purbot + 6) (u16be ds.length) _ d2
    have h8 : purbot + 6 + (u16be ds.length).length = purbot + 8 := by simp [u16be]
    rwa [h8] at h9
  obtain ⟨hds1, hds2⟩ := rdI16s_of_drop B ds (purbot + 8)
    (cs.flatMap frameBytes) (by simpa using d3) hdsv
  obtain ⟨e4, hfr1, _⟩ := rdFrames_of_drop B cs (purbot + 8 + 2 * ds.length) []
    (by simpa using hds2) hfr
  have hzork2 : B[2]? = mem[2]? := by
    rw [hBassoc, List.getElem?_append_left (by omega), List.getElem?_take]
    rw [if_pos (by omega)]
  have hzork3 : B[3]? = mem[3]? := by
    rw [hBassoc, List.getElem?_append_left (by omega), List.getElem?_take]
    rw [if_pos (by omega)]
  have hblen : purbot ≤ B.length := by
    rw [hBassoc, List.length_append, hpre]
    omega
  have hparse : deserializeParse mem bsw B = some (ds, cs, pc, purbot) := by
    rw [deserializeParse, hpb]
    simp only [Option.bind_eq_bind, Option.some_bind]
    rw [if_pos ⟨hzork2, hzork3⟩, hrd32, hrdcs, hrdds]
    simp only [Option.bind_eq_bind, Option.some_bind, hds1, hfr1]
    rw [if_pos ⟨hblen, hlen⟩]
  refine ⟨B, hser, ?_⟩
  simp only [deserialize, hparse]
  have htake : B.take purbot = mem.take purbot := by
    have h9 := List.take_left (mem.take purbot) (u32be pc ++ (u16be cs.length ++
      (u16be ds.length ++ (ds.flatMap i16be ++ cs.flatMap frameBytes))))
    rw [hpre, ← hBassoc] at h9
    exact h9
  rw [htake, List.take_append_drop]

/-- C1 witness: a concrete 16-byte image with PURBOT 8, a two-entry data
stack, one call frame and PC 300 round-trips exactly. -/
theorem serialize_deserialize_roundtrip_witness :
    ∃ blob,
      serialize ([0, 0, 7, 7, 0, 0, 0, 0, 0, 0, 0, 0, 0, 0, 0, 8]) false
        [1, -2] [Frame.mk 5 [3] [7, -7]] 300 = some blob ∧
      deserialize ([0, 0, 7, 7, 0, 0, 0, 0, 0, 0, 0, 0, 0, 0, 0, 8]) false blob =
        (some ([1, -2], [Frame.mk 5 [3] [7, -7]], 300),
         [0, 0, 7, 7, 0, 0, 0, 0, 0, 0, 0, 0, 0, 0, 0, 8]) := by
  exact serialize_deserialize_roundtrip _ false [1, -2] [Frame.mk 5 [3] [7, -7]]
    300 8 (by rfl) (by norm_num) (by norm_num) (by norm_num) (by norm_num)
    (by norm_num) (by decide)
    (by
      intro f hf
      rw [List.mem_singleton] at hf
      subst hf
      refine ⟨by norm_num, by norm_num, by norm_num, by decide, by decide⟩)

/-- C10.  `deserialize` is atomic: whenever it fails — in particular
whenever the blob's bytes 2-3 (ZORKID) differ from the running image's —
it returns null and the working memory image is left completely unchanged;
the copy into memory happens only after the entire blob has parsed
successfully. -/
theorem deserialize_atomic (mem : List Nat) (bsw : Bool) (blob : List Nat) :
    ((deserialize mem bsw blob).1 = none → (deserialize mem bsw blob).2 = mem) ∧
    (¬(blob[2]? = mem[2]? ∧ blob[3]? = mem[3]?) →
      (deserialize mem bsw blob).1 = none ∧ (deserialize mem bsw blob).2 = mem) := by
  constructor
  · intro h
    cases hp : deserializeParse mem bsw blob with
    | none => simp [deserialize, hp]
    | some v =>
      obtain ⟨ds, cs, pc, purbot⟩ := v
      rw [deserialize] at h
      simp only [hp] at h
      exact absurd h (by simp)
  · intro hz
    have hp : deserializeParse mem bsw blob = none := by
      rw [deserializeParse]
      cases hq : getu? mem bsw 14 with
      | none => rfl
      | some purbot =>
        simp only [Option.bind_eq_bind, Option.some_bind]
        rw [if_neg hz]
    simp [deserialize, hp]

/-- C10 witness: the empty blob (whose byte 2 does not exist, hence cannot
match) fails against a 16-byte image and leaves the image unchanged. -/
theorem deserialize_atomic_witness :
    (deserialize (List.replicate 16 0) false []).1 = none ∧
    (deserialize (List.replicate 16 0) false []).2 = List.replicate 16 0 := by
  exact (deserialize_atomic (List.replicate 16 0) false []).2 (by decide)

/-- RESTORE (0OP 0x6) as implemented in jszm.js lines 466-477, up to (not
including) the final `predicate(z)` call: snapshot the mode-flags word
(`this.savedFlags = this.get(16)`); if the host returned a blob, run
`deserialize` on it (which on success overwrites the PURBOT memory
prefix); write the snapshot back to offset 16; on a successful parse
install the deserialized data stack, call stack and PC.  The returned
`Bool` is the argument subsequently passed to `predicate`, i.e. the
branch fires iff it matches the branch byte's sense (see
`predicate_branch`).  `none` models a thrown RangeError. -/
def zRESTORE (s : State) (hostBlob : Option (List Nat)) :
    Option (State × Bool) := do
  let savedFlags ← geti? s.mem s.bsw 16
  let (res, mem1) :=
    match hostBlob with
    | none => ((none : Option (List Int × List Frame × Nat)), s.mem)
    | some blob => deserialize s.mem s.bsw blob
  let mem2 ← put? mem1 s.bsw 16 savedFlags
  match res with
  | none => some ({ s with mem := mem2 }, false)
  | some (ds2, cs2, pc2) =>
    some ({ s with mem := mem2, ds := ds2, cs := cs2, pc := pc2 }, true)

/-- RESTORE as implemented in part_000 lines 502-515: identical to the
jszm.js version except that the refactor assigns the parse result to
`restoreValue` but still installs `dataStack = z[0]`, `callStack = z[1]`,
`programCounter = z[2]` — and no `z` is declared anywhere in this
revision's `run()`, so under `"use strict"` a *successful* restore throws
a ReferenceError out of the interpreter (modelled as `none`); only a
failed restore reaches `predicate(restoreValue)`. -/
def zRESTOREpart000 (s : State) (hostBlob : Option (List Nat)) :
    Option (State × Bool) := do
  let savedFlags ← geti? s.mem s.bsw 16
  let (res, mem1) :=
    match hostBlob with
    | none => ((none : Option (List Int × List Frame × Nat)), s.mem)
    | some blob => deserialize s.mem s.bsw blob
  let mem2 ← put? mem1 s.bsw 16 savedFlags
  match res with
  | none => some ({ s with mem := mem2 }, false)
  | some _ => none

/-- C2.  On a concrete 20-byte image (PURBOT 8) and the blob that
`serialize` produces for the state (ds = [1], cs = [], pc = 300),
deserialize fully succeeds — yet part_000's RESTORE crashes (ReferenceError
on the undeclared `z`, modelled `none`) instead of branching, while the
jszm.js revision installs the deserialized continuation, signals a taken
branch, and keeps the mode-flags word at offset 16 at its pre-restore
value, as the claim states. -/
theorem restore_part000_crash :
    serialize [0, 0, 7, 7, 0, 0, 0, 0, 0, 0, 0, 0, 0, 0, 0, 8, 0, 0, 9, 9] false
      [1] [] 300 = some [0, 0, 7, 7, 0, 0, 0, 0, 0, 0, 1, 44, 0, 0, 0, 1, 0, 1] ∧
    (deserialize [0, 0, 7, 7, 0, 0, 0, 0, 0, 0, 0, 0, 0, 0, 0, 8, 0, 0, 9, 9] false
      [0, 0, 7, 7, 0, 0, 0, 0, 0, 0, 1, 44, 0, 0, 0, 1, 0, 1]).1 =
      some ([1], [], 300) ∧
    zRESTOREpart000
      (State.mk [0, 0, 7, 7, 0, 0, 0, 0, 0, 0, 0, 0, 0, 0, 0, 8, 0, 0, 9, 9]
        false 0 [] [] 0)
      (some [0, 0, 7, 7, 0, 0, 0, 0, 0, 0, 1, 44, 0, 0, 0, 1, 0, 1]) = none ∧
    zRESTORE
      (State.mk [0, 0, 7, 7, 0, 0, 0, 0, 0, 0, 0, 0, 0, 0, 0, 8, 0, 0, 9, 9]
        false 0 [] [] 0)
      (some [0, 0, 7, 7, 0, 0, 0, 0, 0, 0, 1, 44, 0, 0, 0, 1, 0, 1]) =
      some (State.mk [0, 0, 7, 7, 0, 0, 0, 0, 0, 0, 0, 0, 0, 0, 0, 8, 0, 0, 9, 9]
        false 0 [1] [] 300, true) := by
  refine ⟨rfl, rfl, rfl, rfl⟩

/-! ## Z-string decoder (`getText`, part_000 lines 191-256 and jszm.js
lines 178-250)

The two revisions differ only in bookkeeping: part_000 pulls the
abbreviation operand and the two raw-ASCII halves inline from the
character generator, jszm.js threads them through states 3, 4 and 5 of
`temporaryShift` with `auxParsingState`; the consumed characters and the
output are identical.  The decoding loop only terminates through the
word generator's end signal, so every Z-character of every word up to and
including the end-bit word is consumed; the embedding therefore reads the
words first (`readWords`) and then folds the decoder state machine over
their characters (`decodeRun`).  Output is the list of emitted character
codes.  The unbounded abbreviation recursion (`this.getText` inside the
decoder) gets an explicit fuel; `none` models both a thrown RangeError and
non-termination. -/

/-- The 26 + 26 + 26 character codes of the three Z-machine alphabets:
lowercase letters, uppercase letters, and the symbol row
`*`, newline, digits 0-9, then period, comma, and the rest of the
punctuation row (part_000 lines 88-92). -/
def zsciiCharTable : List Nat :=
  [97, 98, 99, 100, 101, 102, 103, 104, 105, 106, 107, 108, 109, 110, 111,
   112, 113, 114, 115, 116, 117, 118, 119, 120, 121, 122,
   65, 66, 67, 68, 69, 70, 71, 72, 73, 74, 75, 76, 77, 78, 79,
   80, 81, 82, 83, 84, 85, 86, 87, 88, 89, 90,
   42, 10, 48, 49, 50, 51, 52, 53, 54, 55, 56, 57, 46, 44, 33,
   63, 95, 35, 39, 34, 47, 92, 45, 58, 40, 41]

theorem getu?_some_bound (mem : List Nat) (bsw : Bool) (x w : Nat)
    (h : getu? mem bsw x = some w) : x + 1 < mem.length := by
  simp only [getu?] at h
  cases h1 : mem[x]? <;> cases h2 : mem[x + 1]? <;> rw [h1, h2] at h
  · exact absurd h (by simp)
  · exact absurd h (by simp)
  · exact absurd h (by simp)
  · exact (List.getElem?_eq_some_iff.mp h2).1

/-- The word-reading generator `getEncodedChars`: 16-bit words from
`addr` (via `getu`) up to and including the first word whose top (end)
bit is set, together with the address just past that word — the value
`this.endText` receives.  `none` models the RangeError of reading past
the end of memory before any end bit; the leading bounds test is exactly
the condition under which `getu` succeeds, lifted out to justify
termination (when it fails, `getu?` is `none` and the result is `none`
either way). -/
def readWords (mem : List Nat) (bsw : Bool) (addr : Nat) :
    Option (List Nat × Nat) :=
  if hlt : addr + 1 < mem.length then
    match getu? mem bsw addr with
    | none => none
    | some w =>
      if w < 32768 then
        match readWords mem bsw (addr + 2) with
        | none => none
        | some (ws, e) => some (w :: ws, e)
      else some ([w], addr + 2)
  else none
termination_by mem.length - addr
decreasing_by omega

/-- The three 5-bit Z-characters of each word, high to low
(`splitBytes(word, 1, 5, 5, 5)` with the end bit dropped). -/
def zchars (ws : List Nat) : List Nat :=
  ws.flatMap (fun w => [w / 1024 % 32, w / 32 % 32, w % 32])

mutual

/-- `getText(addr)`: read the words of the packed string, decode their
characters, and return the emitted character codes together with the
end-of-text address. -/
def getTextGo (mem : List Nat) (bsw : Bool) (fw : Nat)
    (fuel : Nat) (addr : Nat) : Option (List Nat × Nat) :=
  match fuel with
  | 0 => none
  | fuel + 1 =>
    match readWords mem bsw addr with
    | none => none
    | some (ws, e) =>
      match decodeRun mem bsw fw fuel (zchars ws) 0 0 0 with
      | none => none
      | some out => some (out, e)
termination_by (fuel, 0)

/-- The per-character state machine (jszm.js lines 204-246): state
`(permanentShift, temporaryShift, auxParsingState)`; `temporaryShift` 3/4
are the two halves of the raw-ASCII escape, 5 is a pending abbreviation
(decoded by a recursive `getText` of the word address found in the
abbreviations table `fw`), 0 emits a space without touching the shifts,
1-3 start an abbreviation, 4-5 are the shift controls (locking into the
permanent shift when repeated, clearing both when mismatched), 6 under
temporary shift 2 starts the raw-ASCII escape, and anything else emits
from the alphabet table and restores the temporary shift. -/
def decodeRun (mem : List Nat) (bsw : Bool) (fw : Nat)
    (fuel : Nat) (cl : List Nat) (perm temp aux : Nat) : Option (List Nat) :=
  match cl with
  | [] => some []
  | c :: cs =>
    if temp = 3 then decodeRun mem bsw fw fuel cs perm 4 (c * 32)
    else if temp = 4 then
      (decodeRun mem bsw fw fuel cs perm perm (aux + c)).map
        (fun out =>
          (if aux + c = 13 then [10] else if aux + c = 0 then [] else [aux + c])
            ++ out)
    else if temp = 5 then
      match getu? mem bsw (fw + (aux + c) * 2) with
      | none => none
      | some wa =>
        match getTextGo mem bsw fw fuel (wa * 2) with
        | none => none
        | some (abbr, _) =>
          (decodeRun mem bsw fw fuel cs perm perm aux).map (fun out => abbr ++ out)
    else if c = 0 then
      (decodeRun mem bsw fw fuel cs perm temp aux).map (fun out => 32 :: out)
    else if c < 4 then decodeRun mem bsw fw fuel cs perm 5 ((c - 1) * 32)
    else if c < 6 then
      if temp = 0 then decodeRun mem bsw fw fuel cs perm (c - 3) aux
      else if temp = c - 3 then decodeRun mem bsw fw fuel cs temp temp aux
      else decodeRun mem bsw fw fuel cs 0 0 aux
    else if c = 6 ∧ temp = 2 then decodeRun mem bsw fw fuel cs perm 3 aux
    else
      match zsciiCharTable[temp * 26 + (c - 6)]? with
      | none => none
      | some ch =>
        (decodeRun mem bsw fw fuel cs perm perm aux).map (fun out => ch :: out)
termination_by (fuel, cl.length + 1)

end

theorem readWords_spec (mem : List Nat) (bsw : Bool) :
    ∀ ws addr e, readWords mem bsw addr = some (ws, e) →
    ∃ ws0 w, ws = ws0 ++ [w] ∧ (∀ u ∈ ws0, u < 32768) ∧ 32768 ≤ w ∧
      e = addr + 2 * ws.length := by
  intro ws
  induction ws with
  | nil =>
    intro addr e h
    rw [readWords] at h
    split at h
    · split at h
      · exact absurd h (by simp)
      · split at h
        · split at h
          · exact absurd h (by simp)
          · simp at h
        · simp at h
    · exact absurd h (by simp)
  | cons w0 ws ih =>
    intro addr e h
    rw [readWords] at h
    split at h
    · split at h
      · exact absurd h (by simp)
      · rename_i w hg
        split at h
        · rename_i hw
          split at h
          · exact absurd h (by simp)
          · rename_i hmatch ws1 e1 hr
            simp only [Option.some.injEq, Prod.mk.injEq, List.cons.injEq] at h
            obtain ⟨⟨rfl, rfl⟩, rfl⟩ := h
            obtain ⟨ws0, wl, hsp, hall, hlast, hee⟩ := ih (addr + 2) e1 hr
            refine ⟨w :: ws0, wl, ?_, ?_, hlast, ?_⟩
            · rw [hsp]
              rfl
            · intro u hu
              rcases List.mem_cons.mp hu with rfl | hu
              · exact hw
              · exact hall u hu
            · simp only [List.length_cons]
              omega
        · rename_i hw
          simp only [Option.some.injEq, Prod.mk.injEq, List.cons.injEq] at h
          obtain ⟨⟨rfl, rfl⟩, rfl⟩ := h
          exact ⟨[], w, by simp, by simp, by omega, by simp⟩
    · exact absurd h (by simp)

theorem decodeRun_mono_of (mem : List Nat) (bsw : Bool) (fw fuel fuel2 : Nat)
    (hP : ∀ addr r, getTextGo mem bsw fw fuel addr = some r →
      getTextGo mem bsw fw fuel2 addr = some r) :
    ∀ cl perm temp aux out,
      decodeRun mem bsw fw fuel cl perm temp aux = some out →
      decodeRun mem bsw fw fuel2 cl perm temp aux = some out := by
  intro cl
  induction cl with
  | nil =>
    intro perm temp aux out h
    rw [decodeRun] at h ⊢
    exact h
  | cons c cs ih =>
    intro perm temp aux out h
    rw [decodeRun] at h ⊢
    by_cases h3 : temp = 3
    · rw [if_pos h3] at h ⊢
      exact ih _ _ _ _ h
    rw [if_neg h3] at h ⊢
    by_cases h4 : temp = 4
    · rw [if_pos h4] at h ⊢
      rcases hd : decodeRun mem bsw fw fuel cs perm perm (aux + c) with _ | out1
      · rw [hd] at h
        exact absurd h (by simp)
      · rw [hd] at h
        rw [ih _ _ _ _ hd]
        exact h
    rw [if_neg h4] at h ⊢
    by_cases h5 : temp = 5
    · rw [if_pos h5] at h ⊢
      split at h
      · exact absurd h (by simp)
      · rename_i wa hg
        split at h
        · exact absurd h (by simp)
        · rename_i hm abbr e2 ht
          cases hd : decodeRun mem bsw fw fuel cs perm perm aux with
          | none =>
            rw [hd] at h
            exact absurd h (by simp)
          | some out1 =>
            rw [hd] at h
            simp only [hg, hP (wa * 2) (abbr, e2) ht, ih _ _ _ _ hd,
              Option.map_some]
            simpa using h
    rw [if_neg h5] at h ⊢
    by_cases h0 : c = 0
    · rw [if_pos h0] at h ⊢
      rcases hd : decodeRun mem bsw fw fuel cs perm temp aux with _ | out1
      · rw [hd] at h
        exact absurd h (by simp)
      · rw [hd] at h
        rw [ih _ _ _ _ hd]
        exact h
    rw [if_neg h0] at h ⊢
    by_cases hlt4 : c < 4
    · rw [if_pos hlt4] at h ⊢
      exact ih _ _ _ _ h
    rw [if_neg hlt4] at h ⊢
    by_cases hlt6 : c < 6
    · rw [if_pos hlt6] at h ⊢
      by_cases ht0 : temp = 0
      · rw [if_pos ht0] at h ⊢
        exact ih _ _ _ _ h
      rw [if_neg ht0] at h ⊢
      by_cases htc : temp = c - 3
      · rw [if_pos htc] at h ⊢
        exact ih _ _ _ _ h
      · rw [if_neg htc] at h ⊢
        exact ih _ _ _ _ h
    rw [if_neg hlt6] at h ⊢
    by_cases h62 : c = 6 ∧ temp = 2
    · rw [if_pos h62] at h ⊢
      exact ih _ _ _ _ h
    rw [if_neg h62] at h ⊢
    split at h
    · exact absurd h (by simp)
    · rename_i ch hz
      cases hd : decodeRun mem bsw fw fuel cs perm perm aux with
      | none =>
        rw [hd] at h
        exact absurd h (by simp)
      | some out1 =>
        rw [hd] at h
        simp only [hz, ih _ _ _ _ hd, Option.map_some]
        simpa using h

theorem getTextGo_mono (mem : List Nat) (bsw : Bool) (fw : Nat) :
    ∀ fuel fuel2, fuel ≤ fuel2 → ∀ addr r,
      getTextGo mem bsw fw fuel addr = some r →
      getTextGo mem bsw fw fuel2 addr = some r := by
  intro fuel
  induction fuel with
  | zero =>
    intro fuel2 _ addr r h
    rw [getTextGo] at h
    exact absurd h (by simp)
  | succ fuel ih =>
    intro fuel2 hle addr r h
    obtain ⟨fuel3, rfl⟩ : ∃ k, fuel2 = k + 1 := ⟨fuel2 - 1, by omega⟩
    rw [getTextGo] at h ⊢
    rcases hr : readWords mem bsw addr with _ | we
    · rw [hr] at h
      exact absurd h (by simp)
    · rw [hr] at h
      obtain ⟨ws, e⟩ := we
      replace h : (match decodeRun mem bsw fw fuel (zchars ws) 0 0 0 with
        | none => none
        | some out => some (out, e)) = some r := h
      show (match decodeRun mem bsw fw fuel3 (zchars ws) 0 0 0 with
        | none => none
        | some out => some (out, e)) = some r
      split at h
      · exact absurd h (by simp)
      · rename_i out hd
        have hd3 : decodeRun mem bsw fw fuel3 (zchars ws) 0 0 0 = some out :=
          decodeRun_mono_of mem bsw fw fuel fuel3
            (fun a r2 => ih fuel3 (by omega) a r2) _ _ _ _ _ hd
        simp only [hd3]
        exact h

/-- C4.  When `getText` succeeds it has consumed 16-bit words up to and
including exactly the first word whose most-significant (end) bit is set
— every earlier word has a clear end bit — and the end-of-text pointer it
returns is the byte address just past that word; and the decoded text and
end pointer are independent of the abbreviation-recursion allowance: any
larger fuel returns the identical result, so the text is the same however
many abbreviation layers are expanded along the way. -/
theorem getText_end_pointer (mem : List Nat) (bsw : Bool) (fw fuel addr : Nat)
    (out : List Nat) (e : Nat)
    (h : getTextGo mem bsw fw fuel addr = some (out, e)) :
    (∃ ws0 w, readWords mem bsw addr = some (ws0 ++ [w], e) ∧
      (∀ u ∈ ws0, u < 32768) ∧ 32768 ≤ w ∧
      e = addr + 2 * (ws0.length + 1)) ∧
    (∀ fuel2, fuel ≤ fuel2 → getTextGo mem bsw fw fuel2 addr = some (out, e)) := by
  constructor
  · cases fuel with
    | zero =>
      rw [getTextGo] at h
      exact absurd h (by simp)
    | succ fuel =>
      rw [getTextGo] at h
      rcases hr : readWords mem bsw addr with _ | we
      · rw [hr] at h
        exact absurd h (by simp)
      · rw [hr] at h
        obtain ⟨ws, e1⟩ := we
        replace h : (match decodeRun mem bsw fw fuel (zchars ws) 0 0 0 with
          | none => none
          | some o => some (o, e1)) = some (out, e) := h
        split at h
        · exact absurd h (by simp)
        · simp only [Option.some.injEq, Prod.mk.injEq] at h
          obtain ⟨rfl, rfl⟩ := h
          obtain ⟨ws0, w, hsp, hall, hw, hee⟩ := readWords_spec mem bsw ws addr e1 hr
          have hg1 : some (ws, e1) = some (ws0 ++ [w], e1) := by
            rw [hsp]
          have hg2 : e1 = addr + 2 * (ws0.length + 1) := by
            rw [hsp] at hee
            simpa using hee
          exact ⟨ws0, w, hg1, hall, hw, hg2⟩
  · intro fuel2 hle
    exact getTextGo_mono mem bsw fw fuel fuel2 hle addr _ h

set_option maxRecDepth 4000 in
/-- C4 witness: the single word 0x9D09 (end bit set, characters 7, 8, 9)
decodes to `b`, `c`, `d` with end pointer 2 = just past the word. -/
theorem getText_end_pointer_witness :
    ∃ ws0 w, readWords [157, 9] false 0 = some (ws0 ++ [w], 2) ∧ 32768 ≤ w ∧
      2 = 0 + 2 * (ws0.length + 1) := by
  obtain ⟨⟨ws0, w, h1, _, h3, h4⟩, _⟩ :=
    getText_end_pointer [157, 9] false 0 1 0 [98, 99, 100] 2
      (by simp [getTextGo, readWords, decodeRun, zchars, getu?, zsciiCharTable])
  exact ⟨ws0, w, h1, h3, h4⟩

/-! ## Input handling (`handleInput`, part_000 lines 283-312)

Strings are lists of character codes.  `toLowerCase` is modelled over the
ASCII range (V3 story text and dictionary words are ASCII).  The tokenizer
models the source's regular expression
`[<breaks>]|[^ \n\t<breaks>]+` under `matchAll`: a break character is a
one-character token, a maximal run of non-whitespace non-break characters
is a word token, whitespace separates, and each token carries its 0-based
match index. -/

/-- ASCII lowercasing of one character code. -/
def jsToLower (c : Nat) : Nat := if 65 ≤ c ∧ c ≤ 90 then c + 32 else c

/-- `str.slice(0, n - 1)` for the text-buffer length byte `n`: a positive
`n` keeps the first `n − 1` characters; `n = 0` gives `slice(0, -1)`, all
but the last character; an out-of-range length byte (`undefined`) gives
`slice(0, NaN)`, the empty string. -/
def truncInput (str : List Nat) : Option Nat → List Nat
  | none => []
  | some 0 => str.dropLast
  | some (n + 1) => str.take n

/-- `this.mem.set(data, off)`: splice `data` into memory at `off`;
`none` models the RangeError thrown when the write overruns the end. -/
def writeBytes (mem : List Nat) (off : Nat) (data : List Nat) :
    Option (List Nat) :=
  if off + data.length ≤ mem.length then
    some (mem.take off ++ data ++ mem.drop (off + data.length))
  else none

/-- A single `this.mem[i] = v` store: the value is reduced mod 256 and an
out-of-range index is a silent no-op (Uint8Array semantics, matching
`List.set`). -/
def setByte (mem : List Nat) (i v : Nat) : List Nat := mem.set i (v % 256)

/-- Whitespace of the tokenizer's regular expression: space, newline, tab. -/
def isWS (c : Nat) : Bool := c = 32 || c = 10 || c = 9

/-- The cost weights of `trimForVocabulary`: 1 for an alphabet-0
(lowercase) character, 2 for any other character of the three Z alphabets
(shift + character), 4 for anything else (shift + 6 + two halves). -/
def trimCost (c : Nat) : Int :=
  if (zsciiCharTable.take 26).contains c then 1
  else if zsciiCharTable.contains c then 2
  else 4

/-- `trimForVocabulary` (part_000 lines 288-302): consume characters while
the running budget (starting at 6) stays nonnegative; the first character
that would drive it negative ends the key. -/
def trimForVocab (tok : List Nat) : List Nat := go tok 6 where
  go : List Nat → Int → List Nat
    | [], _ => []
    | c :: cs, limit =>
      let limit2 := limit - trimCost c
      if limit2 < 0 then [] else c :: go cs limit2

/-- The maximal run of non-whitespace, non-break characters (the `+` of
the second regex alternative). -/
def takeRun (breaks : List Nat) : List Nat → List Nat
  | [] => []
  | c :: cs =>
    if breaks.contains c || isWS c then [] else c :: takeRun breaks cs

/-- `str.matchAll(this.regBreak)`: scan left to right; a break character
is a single-character token, whitespace is skipped, anything else opens a
maximal run token; each token is paired with its 0-based start index. -/
def tokenize (breaks : List Nat) (str : List Nat) (i : Nat) :
    List (List Nat × Nat) :=
  match str with
  | [] => []
  | c :: cs =>
    if breaks.contains c then ([c], i) :: tokenize breaks cs (i + 1)
    else if isWS c then tokenize breaks cs (i + 1)
    else
      (c :: takeRun breaks cs, i) ::
        tokenize breaks (cs.drop (takeRun breaks cs).length)
          (i + 1 + (takeRun breaks cs).length)
termination_by str.length
decreasing_by
  all_goals simp only [List.length_cons, List.length_drop]
  all_goals omega

/-- `this.vocabulary.get(key) || putu's undefined-to-0`: the dictionary
address for an encoded key, 0 when absent. -/
def vocabLookup (vocab : List (List Nat × Nat)) (key : List Nat) : Nat :=
  ((vocab.find? (fun p => p.1 == key)).map Prod.snd).getD 0

/-- The token-record loop of `handleInput` (part_000 lines 306-311): for
the token at index `k`, `putu` the dictionary address of its trimmed key
at `t2 + k*4 + 2` (a DataView write: byte-swap honoured, RangeError out
of bounds), then single-byte stores of the token length and the 1-based
match index. -/
def writeToks (bsw : Bool) (vocab : List (List Nat × Nat)) (t2 : Nat) :
    List (List Nat × Nat) → Nat → List Nat → Option (List Nat)
  | [], _, mem => some mem
  | (tok, pos) :: rest, k, mem => do
    let addr := t2 + k * 4 + 2
    let mem1 ← put? mem bsw addr ((vocabLookup vocab (trimForVocab tok) : Int))
    let mem2 := setByte mem1 (addr + 2) tok.length
    let mem3 := setByte mem2 (addr + 3) (pos + 1)
    writeToks bsw vocab t2 rest (k + 1) mem3

/-- `handleInput(str, t1, t2)` (part_000 lines 283-312): lowercase and
truncate the input to the text buffer's length byte minus one, write it at
`t1 + 1` with a 0 terminator, tokenize it, store the token count at
`t2 + 1`, and write the 4-byte token records. -/
def handleInput (mem : List Nat) (bsw : Bool) (vocab : List (List Nat × Nat))
    (breaks : List Nat) (str : List Nat) (t1 t2 : Nat) : Option (List Nat) := do
  let str2 := truncInput (str.map jsToLower) mem[t1]?
  let mem1 ← writeBytes mem (t1 + 1) (str2 ++ [0])
  let toks := tokenize breaks str2 0
  let mem2 := setByte mem1 (t2 + 1) toks.length
  writeToks bsw vocab t2 toks 0 mem2

theorem put?_length (mem : List Nat) (bsw : Bool) (x : Nat) (y : Int)
    (mem2 : List Nat) (h : put? mem bsw x y = some mem2) :
    mem2.length = mem.length := by
  simp only [put?] at h
  split at h
  · split at h <;> (simp only [Option.some.injEq] at h; subst h; simp)
  · exact absurd h (by simp)

theorem put?_frame (mem : List Nat) (bsw : Bool) (x : Nat) (y : Int)
    (mem2 : List Nat) (h : put? mem bsw x y = some mem2)
    (i : Nat) (hi : i ≠ x) (hi2 : i ≠ x + 1) : mem2[i]? = mem[i]? := by
  simp only [put?] at h
  split at h
  · split at h <;>
      (simp only [Option.some.injEq] at h
       subst h
       rw [List.getElem?_set_ne (by omega), List.getElem?_set_ne (by omega)])
  · exact absurd h (by simp)

theorem getu_put (mem : List Nat) (bsw : Bool) (p : Nat) (y : Int)
    (mem2 : List Nat) (h : put? mem bsw p y = some mem2) :
    getu? mem2 bsw p = some (toUint16 y) := by
  simp only [put?] at h
  split at h
  · rename_i hb
    have hp : p < mem.length := by omega
    have hp1 : p + 1 < mem.length := by omega
    have hne : p + 1 ≠ p := by omega
    cases hs : bsw with
    | false =>
      simp only [hs, if_neg (Bool.false_ne_true), Option.some.injEq] at h
      subst h
      simp only [getu?]
      rw [List.getElem?_set_self (by simpa using hp1),
        List.getElem?_set_ne hne, List.getElem?_set_self hp]
      simp only [if_neg (Bool.false_ne_true), Option.some.injEq]
      exact Nat.div_add_mod' (toUint16 y) 256
    | true =>
      rw [hs, if_pos rfl] at h
      rw [Option.some.injEq] at h
      subst h
      simp only [getu?]
      rw [List.getElem?_set_self (by simpa using hp1),
        List.getElem?_set_ne hne, List.getElem?_set_self hp]
      simp only [if_pos rfl, Option.some.injEq]
      exact Nat.div_add_mod' (toUint16 y) 256
  · exact absurd h (by simp)

theorem getu?_congr (m1 m2 : List Nat) (bsw : Bool) (x : Nat)
    (h1 : m1[x]? = m2[x]?) (h2 : m1[x + 1]? = m2[x + 1]?) :
    getu? m1 bsw x = getu? m2 bsw x := by
  simp only [getu?, h1, h2]

theorem toUint16_ofNat (n : Nat) : toUint16 (n : Int) = n % 65536 := by
  simp only [toUint16]
  omega

theorem writeBytes_spec (mem : List Nat) (off : Nat) (data : List Nat)
    (mem2 : List Nat) (h : writeBytes mem off data = some mem2) :
    mem2.length = mem.length ∧
    (∀ i, i < off → mem2[i]? = mem[i]?) ∧
    (∀ i, off + data.length ≤ i → mem2[i]? = mem[i]?) ∧
    (∀ j, j < data.length → mem2[off + j]? = data[j]?) := by
  simp only [writeBytes] at h
  split at h
  · rename_i hb
    simp only [Option.some.injEq] at h
    subst h
    have htl : (mem.take off).length = off := by
      rw [List.length_take]
      omega
    refine ⟨?_, ?_, ?_, ?_⟩
    · simp only [List.length_append, htl, List.length_drop]
      omega
    · intro i hi
      rw [List.append_assoc, List.getElem?_append_left (by rw [htl]; omega),
        List.getElem?_take, if_pos hi]
    · intro i hi
      rw [List.append_assoc, List.getElem?_append_right (by rw [htl]; omega),
        List.getElem?_append_right (by rw [htl]; omega),
        List.getElem?_drop]
      congr 1
      rw [htl]
      omega
    · intro j hj
      rw [List.append_assoc, List.getElem?_append_right (by rw [htl]; omega),
        List.getElem?_append_left (by rw [htl]; omega)]
      congr 1
      rw [htl]
      omega
  · exact absurd h (by simp)

theorem setByte_length (mem : List Nat) (i v : Nat) :
    (setByte mem i v).length = mem.length := by
  simp [setByte]

theorem setByte_frame (mem : List Nat) (i v j : Nat) (hj : j ≠ i) :
    (setByte mem i v)[j]? = mem[j]? := by
  simp only [setByte]
  rw [List.getElem?_set_ne (by omega)]

theorem setByte_self (mem : List Nat) (i v : Nat) (hi : i < mem.length) :
    (setByte mem i v)[i]? = some (v % 256) := by
  simp only [setByte]
  rw [List.getElem?_set_self hi]

theorem writeToks_spec (bsw : Bool) (vocab : List (List Nat × Nat)) (t2 : Nat) :
    ∀ (toks : List (List Nat × Nat)) (k : Nat) (mem : List Nat),
    t2 + 2 + 4 * (k + toks.length) ≤ mem.length →
    ∃ mem2, writeToks bsw vocab t2 toks k mem = some mem2 ∧
      mem2.length = mem.length ∧
      (∀ i, i < t2 + 2 + 4 * k → mem2[i]? = mem[i]?) ∧
      (∀ i, t2 + 2 + 4 * (k + toks.length) ≤ i → mem2[i]? = mem[i]?) ∧
      (∀ j, (hj : j < toks.length) →
        getu? mem2 bsw (t2 + (k + j) * 4 + 2) =
          some (vocabLookup vocab (trimForVocab (toks.get ⟨j, hj⟩).1) % 65536) ∧
        mem2[t2 + (k + j) * 4 + 4]? = some ((toks.get ⟨j, hj⟩).1.length % 256) ∧
        mem2[t2 + (k + j) * 4 + 5]? = some (((toks.get ⟨j, hj⟩).2 + 1) % 256)) := by
  intro toks
  induction toks with
  | nil =>
    intro k mem hb
    exact ⟨mem, rfl, rfl, fun i _ => rfl, fun i _ => rfl, fun j hj => absurd hj (by simp)⟩
  | cons tp rest ih =>
    obtain ⟨tok, pos⟩ := tp
    intro k mem hb
    simp only [List.length_cons] at hb
    have hput : ∃ mem1, put? mem bsw (t2 + k * 4 + 2)
        ((vocabLookup vocab (trimForVocab tok) : Int)) = some mem1 := by
      simp only [put?]
      rw [if_pos (by omega)]
      exact ⟨_, rfl⟩
    obtain ⟨mem1, hmem1⟩ := hput
    have hlen1 : mem1.length = mem.length := put?_length _ _ _ _ _ hmem1
    set mem3 : List Nat :=
      setByte (setByte mem1 (t2 + k * 4 + 2 + 2) tok.length)
        (t2 + k * 4 + 2 + 3) (pos + 1) with hmem3
    have hlen3 : mem3.length = mem.length := by
      simp only [hmem3, setByte_length, hlen1]
    obtain ⟨mem2, hw, hlen2, hlow, hhigh, hrec⟩ :=
      ih (k + 1) mem3 (by rw [hlen3]; omega)
    have hstep : writeToks bsw vocab t2 ((tok, pos) :: rest) k mem = some mem2 := by
      rw [writeToks, hmem1]
      exact hw
    have hm3frame : ∀ i, i < t2 + k * 4 + 2 ∨ t2 + k * 4 + 6 ≤ i →
        mem3[i]? = mem[i]? := by
      intro i hi
      simp only [hmem3]
      rw [setByte_frame _ _ _ _ (by omega), setByte_frame _ _ _ _ (by omega)]
      exact put?_frame _ _ _ _ _ hmem1 i (by omega) (by omega)
    refine ⟨mem2, hstep, by rw [hlen2, hlen3], ?_, ?_, ?_⟩
    · intro i hi
      rw [hlow i (by omega)]
      exact hm3frame i (by omega)
    · intro i hi
      simp only [List.length_cons] at hi
      rw [hhigh i (by omega)]
      exact hm3frame i (by omega)
    · intro j hj
      cases j with
      | zero =>
        have h26 : t2 + (k + 0) * 4 + 2 = t2 + k * 4 + 2 := by ring
        have hin : t2 + k * 4 + 2 + 3 < mem1.length := by omega
        refine ⟨?_, ?_, ?_⟩
        · rw [h26]
          have hu : getu? mem2 bsw (t2 + k * 4 + 2) = getu? mem3 bsw (t2 + k * 4 + 2) :=
            getu?_congr _ _ _ _ (hlow _ (by omega)) (hlow _ (by omega))
          rw [hu]
          have hu3 : getu? mem3 bsw (t2 + k * 4 + 2) = getu? mem1 bsw (t2 + k * 4 + 2) := by
            apply getu?_congr
            · simp only [hmem3]
              rw [setByte_frame _ _ _ _ (by omega), setByte_frame _ _ _ _ (by omega)]
            · simp only [hmem3]
              rw [setByte_frame _ _ _ _ (by omega), setByte_frame _ _ _ _ (by omega)]
          rw [hu3, getu_put _ _ _ _ _ hmem1, toUint16_ofNat]
          rfl
        · have he : t2 + (k + 0) * 4 + 4 = t2 + k * 4 + 2 + 2 := by ring
          rw [he, hlow _ (by omega)]
          simp only [hmem3]
          rw [setByte_frame _ _ _ _ (by omega),
            setByte_self _ _ _ (by omega)]
          rfl
        · have he : t2 + (k + 0) * 4 + 5 = t2 + k * 4 + 2 + 3 := by ring
          rw [he, hlow _ (by omega)]
          simp only [hmem3]
          rw [setByte_self _ _ _ (by rw [setByte_length]; omega)]
          rfl
      | succ j =>
        have hj2 : j < rest.length := by simpa using hj
        have ha : ∀ c : Nat, t2 + (k + (j + 1)) * 4 + c = t2 + ((k + 1) + j) * 4 + c := by
          intro c
          ring
        have hg : ((tok, pos) :: rest).get ⟨j + 1, hj⟩ = rest.get ⟨j, hj2⟩ := rfl
        obtain ⟨r1, r2, r3⟩ := hrec j hj2
        exact ⟨by rw [ha 2, hg]; exact r1, by rw [ha 4, hg]; exact r2,
          by rw [ha 5, hg]; exact r3⟩

/-- C9.  `handleInput` writes the lowercased input, truncated to
`mem[t1] − 1` characters, at `t1 + 1` followed by a 0 terminator; writes
the token count at `t2 + 1`; and for the token at index `k` writes a
4-byte record at `t2 + 2 + 4k`: first the dictionary address of the
token's trimmed (6-budget encoded) key — 0 when the vocabulary lacks it,
since `putu(addr, undefined)` stores 0 — then the token's length and its
1-based start offset.  Buffer bounds and text/parse disjointness are
assumed, as the game's buffer layout guarantees. -/
theorem handleInput_spec (mem : List Nat) (bsw : Bool)
    (vocab : List (List Nat × Nat)) (breaks : List Nat) (str : List Nat)
    (t1 t2 n : Nat) (hn : mem[t1]? = some n) (hn1 : 1 ≤ n)
    (htext : t1 + 1 + ((str.map jsToLower).take (n - 1)).length + 1 ≤ mem.length)
    (hrec : t2 + 2 +
      4 * (tokenize breaks ((str.map jsToLower).take (n - 1)) 0).length ≤ mem.length)
    (hdisj : t1 + 1 + ((str.map jsToLower).take (n - 1)).length + 1 ≤ t2 + 1 ∨
      t2 + 2 + 4 * (tokenize breaks ((str.map jsToLower).take (n - 1)) 0).length ≤
        t1 + 1) :
    truncInput (str.map jsToLower) mem[t1]? = (str.map jsToLower).take (n - 1) ∧
    ∃ mem2, handleInput mem bsw vocab breaks str t1 t2 = some mem2 ∧
      mem2.length = mem.length ∧
      (∀ j, j < ((str.map jsToLower).take (n - 1)).length →
        mem2[t1 + 1 + j]? = ((str.map jsToLower).take (n - 1))[j]?) ∧
      mem2[t1 + 1 + ((str.map jsToLower).take (n - 1)).length]? = some 0 ∧
      mem2[t2 + 1]? =
        some ((tokenize breaks ((str.map jsToLower).take (n - 1)) 0).length % 256) ∧
      (∀ k (hk : k < (tokenize breaks ((str.map jsToLower).take (n - 1)) 0).length),
        getu? mem2 bsw (t2 + k * 4 + 2) =
          some (vocabLookup vocab (trimForVocab
            (((tokenize breaks ((str.map jsToLower).take (n - 1)) 0).get ⟨k, hk⟩).1))
            % 65536) ∧
        mem2[t2 + k * 4 + 4]? =
          some ((((tokenize breaks ((str.map jsToLower).take (n - 1)) 0).get
            ⟨k, hk⟩).1).length % 256) ∧
        mem2[t2 + k * 4 + 5]? =
          some ((((tokenize breaks ((str.map jsToLower).take (n - 1)) 0).get
            ⟨k, hk⟩).2 + 1) % 256)) := by
  set str2 : List Nat := (str.map jsToLower).take (n - 1) with hstr2
  have htr : truncInput (str.map jsToLower) mem[t1]? = str2 := by
    rw [hn]
    obtain ⟨m, rfl⟩ : ∃ m, n = m + 1 := ⟨n - 1, by omega⟩
    simp [truncInput, hstr2]
  refine ⟨htr, ?_⟩
  set toks : List (List Nat × Nat) := tokenize breaks str2 0 with htoks
  have hwb : writeBytes mem (t1 + 1) (str2 ++ [0]) =
      some (mem.take (t1 + 1) ++ (str2 ++ [0]) ++
        mem.drop (t1 + 1 + (str2 ++ [0]).length)) := by
    simp only [writeBytes]
    rw [if_pos (by simp; omega)]
  obtain ⟨hlen1, hlo1, hhi1, hval1⟩ := writeBytes_spec mem (t1 + 1) (str2 ++ [0]) _ hwb
  set mem1 : List Nat := mem.take (t1 + 1) ++ (str2 ++ [0]) ++
    mem.drop (t1 + 1 + (str2 ++ [0]).length) with hmem1
  set mem1b : List Nat := setByte mem1 (t2 + 1) toks.length with hmem1b
  have hlen1b : mem1b.length = mem.length := by
    rw [hmem1b, setByte_length, hlen1]
  obtain ⟨mem2, hwt, hlen2, hlow, hhigh, hrecs⟩ :=
    writeToks_spec bsw vocab t2 toks 0 mem1b (by rw [hlen1b]; simpa using hrec)
  have hrun : handleInput mem bsw vocab breaks str t1 t2 = some mem2 := by
    rw [handleInput, htr, hwb]
    simp only [Option.bind_eq_bind, Option.some_bind]
    rw [← htoks, ← hmem1b]
    exact hwt
  have hparse_t : ∀ i, t1 + 1 ≤ i → i < t1 + 1 + str2.length + 1 →
      mem2[i]? = mem1[i]? := by
    intro i h1 h2
    have hstep1 : mem2[i]? = mem1b[i]? := by
      rcases hdisj with hd | hd
      · exact hlow i (by omega)
      · exact hhigh i (by simpa using by omega)
    rw [hstep1, hmem1b]
    rcases hdisj with hd | hd
    · exact setByte_frame _ _ _ _ (by omega)
    · exact setByte_frame _ _ _ _ (by omega)
  refine ⟨mem2, hrun, by rw [hlen2, hlen1b], ?_, ?_, ?_, ?_⟩
  · intro j hj
    rw [hparse_t (t1 + 1 + j) (by omega) (by omega)]
    rw [hval1 j (by simp; omega)]
    rw [List.getElem?_append_left (by omega)]
  · rw [hparse_t (t1 + 1 + str2.length) (by omega) (by omega)]
    rw [hval1 str2.length (by simp)]
    rw [List.getElem?_append_right (by omega)]
    simp
  · have h1 : mem2[t2 + 1]? = mem1b[t2 + 1]? := hlow (t2 + 1) (by omega)
    rw [h1, hmem1b, setByte_self _ _ _ (by rw [hlen1]; omega)]
  · intro k hk
    obtain ⟨r1, r2, r3⟩ := hrecs k hk
    have hz : ∀ c : Nat, t2 + (0 + k) * 4 + c = t2 + k * 4 + c := by
      intro c
      ring
    exact ⟨by rw [← hz 2]; exact r1, by rw [← hz 4]; exact r2, by rw [← hz 5]; exact r3⟩

set_option maxRecDepth 4000 in
/-- C9 witness: input `Hi` into a 30-byte memory with text buffer at 0
(length byte 5) and parse buffer at 10, with `hi` in the vocabulary at
address 1234: the token count 1 lands at 11, the record word 1234 at
12-13, the length 2 at 14, the 1-based offset 1 at 15. -/
theorem handleInput_spec_witness :
    ∃ mem2, handleInput (5 :: List.replicate 29 0) false [([104, 105], 1234)] []
        [72, 105] 0 10 = some mem2 ∧
      mem2[11]? = some 1 ∧ getu? mem2 false 12 = some 1234 ∧
      mem2[14]? = some 2 ∧ mem2[15]? = some 1 ∧
      mem2[1]? = some 104 ∧ mem2[2]? = some 105 ∧ mem2[3]? = some 0 := by
  have hmap : ([72, 105].map jsToLower).take (5 - 1) = [104, 105] := by decide
  have htk : tokenize ([] : List Nat) [104, 105] 0 = [([104, 105], 0)] := by
    simp [tokenize, takeRun, isWS]
  obtain ⟨htr, mem2, hrun, hlen, htext, hterm, hcount, hrecs⟩ :=
    handleInput_spec (5 :: List.replicate 29 0) false [([104, 105], 1234)] []
      [72, 105] 0 10 5 (by rfl) (by norm_num)
      (by rw [hmap]; simp)
      (by rw [hmap, htk]; simp)
      (by rw [hmap, htk]; left; simp)
  rw [hmap] at htext hterm
  rw [hmap, htk] at hcount hrecs
  obtain ⟨r1, r2, r3⟩ := hrecs 0 (by simp)
  simp only [List.get] at r1 r2 r3
  have hv : vocabLookup [([104, 105], 1234)] (trimForVocab [104, 105]) % 65536
      = 1234 := by decide
  refine ⟨mem2, hrun, ?_, ?_, ?_, ?_, ?_, ?_, ?_⟩
  · simpa using hcount
  · rw [hv] at r1
    simpa using r1
  · simpa using r2
  · simpa using r3
  · have h1 := htext 0 (by simp)
    simpa using h1
  · have h1 := htext 1 (by simp)
    simpa using h1
  · simpa using hterm

/-! ### C6: the object tree and `move` (src/unnamed/part_000 lines 369-391)

In the version-3 object table, object number `o` keeps its parent byte at
`objects + o*9 + 4`, its next-sibling byte at `objects + o*9 + 5`, and its
first-child byte at `objects + o*9 + 6` (`objects` is the table base; `mem`
is a `Uint8Array`, so writes are masked to a byte and out-of-bounds writes
are silently dropped). -/

def oPrnt (base o : Nat) : Nat := base + o * 9 + 4

def oNext (base o : Nat) : Nat := base + o * 9 + 5

def oFirst (base o : Nat) : Nat := base + o * 9 + 6

/-- A `Uint8Array` read.  An out-of-bounds read gives `undefined`, which in
the `move` code is only ever tested for truthiness or compared with a
nonzero object number; it behaves there exactly like the 0 returned here,
and all theorems below keep every accessed cell in bounds anyway. -/
def byteAt (mem : List Nat) (i : Nat) : Nat := (mem[i]?).getD 0

/-- The predecessor walk of `move` (part_000 lines 376-381): entered with
`z` the first child of `x`'s parent and `z ≠ x`, it repeatedly does
`w = z; z = mem[objects+z*9+5]` until `z == x` and yields the final `w`.
The JavaScript `while` loop runs forever on a malformed chain that never
reaches `x`; the fuel of 256 used below exceeds the length of every
repetition-free chain of byte values, so `none` models exactly that
divergence. -/
def findPrev (mem : List Nat) (base x : Nat) : Nat → Nat → Option Nat
  | 0, _ => none
  | fuel + 1, z =>
    if byteAt mem (oNext base z) = x then some z
    else findPrev mem base x fuel (byteAt mem (oNext base z))

/-- The first half of `move` (the code above the source comment `Insert at
beginning of new FIRST-NEXT chain`): if `x` has a parent, unlink `x` from
that parent's child chain, either by redirecting the parent's first-child
byte (when `x` is the first child) or by redirecting the predecessor's
next byte found by the sibling walk. -/
def moveRemove (mem : List Nat) (base x : Nat) : Option (List Nat) :=
  let p := byteAt mem (oPrnt base x)
  if p ≠ 0 then
    if byteAt mem (oFirst base p) = x then
      some (setByte mem (oFirst base p) (byteAt mem (oNext base x)))
    else
      match findPrev mem base x 256 (byteAt mem (oFirst base p)) with
      | none => none
      | some w => some (setByte mem (oNext base w) (byteAt mem (oNext base x)))
  else some mem

/-- `move(x, y)` of part_000 lines 369-391: unlink `x` from its old parent,
then `mem[objects+x*9+4] = y` (the `if` tests the assigned value `y`, which
is the right-hand side, for truthiness); when `y` is nonzero, `x` is pushed
onto the front of the child chain of `y` (`x.next = y.first; y.first = x`),
otherwise `x.next = 0`. -/
def move (mem : List Nat) (base x y : Nat) : Option (List Nat) :=
  match moveRemove mem base x with
  | none => none
  | some m1 =>
    let m2 := setByte m1 (oPrnt base x) y
    if y ≠ 0 then
      let m3 := setByte m2 (oNext base x) (byteAt m2 (oFirst base y))
      some (setByte m3 (oFirst base y) x)
    else
      some (setByte m2 (oNext base x) 0)

/-- The sibling chain starting at object `z`: `z`, `z.next`, `z.next.next`,
... stopping before 0.  The fuel of 256 exceeds the length of every
repetition-free chain of byte values. -/
def chainGo (mem : List Nat) (base : Nat) : Nat → Nat → Option (List Nat)
  | 0, _ => none
  | fuel + 1, z =>
    if z = 0 then some []
    else
      match chainGo mem base fuel (byteAt mem (oNext base z)) with
      | none => none
      | some l => some (z :: l)

/-- The sibling chain rooted at parent `r`: the children of `r` in order,
starting from the first-child byte of `r`. -/
def chain (mem : List Nat) (base r : Nat) : Option (List Nat) :=
  chainGo mem base 256 (byteAt mem (oFirst base r))

/-- Well-formedness of the object table for objects `1..N` (object numbers
are bytes in version 3, so `N ≤ 255`): all object cells are in bounds,
every parent/next/first byte is a valid object number, every sibling chain
terminates, every member of the chain rooted at `r` has parent byte `r`,
and every object with a nonzero parent byte occurs in the chain rooted at
its parent. -/
def WF (mem : List Nat) (base N : Nat) : Prop :=
  N ≤ 255 ∧ base + N * 9 + 7 ≤ mem.length ∧
  (∀ o ∈ List.range (N + 1), 1 ≤ o →
    byteAt mem (oPrnt base o) ≤ N ∧ byteAt mem (oNext base o) ≤ N ∧
    byteAt mem (oFirst base o) ≤ N) ∧
  (∀ r ∈ List.range (N + 1), 1 ≤ r → (chain mem base r).isSome = true) ∧
  (∀ r ∈ List.range (N + 1), 1 ≤ r →
    ∀ o ∈ (chain mem base r).getD [], byteAt mem (oPrnt base o) = r) ∧
  (∀ o ∈ List.range (N + 1), 1 ≤ o → byteAt mem (oPrnt base o) ≠ 0 →
    o ∈ (chain mem base (byteAt mem (oPrnt base o))).getD [])

instance (mem : List Nat) (base N : Nat) : Decidable (WF mem base N) := by
  unfold WF
  infer_instance

theorem byteAt_setByte_ne (mem : List Nat) (i v j : Nat) (hj : j ≠ i) :
    byteAt (setByte mem i v) j = byteAt mem j := by
  simp only [byteAt]
  rw [setByte_frame mem i v j hj]

theorem byteAt_setByte_self (mem : List Nat) (i v : Nat) (hi : i < mem.length) :
    byteAt (setByte mem i v) i = v % 256 := by
  simp only [byteAt]
  rw [setByte_self mem i v hi]
  rfl

theorem chainGo_congr (mem m2 : List Nat) (base : Nat) :
    ∀ (f z : Nat) (l : List Nat), chainGo mem base f z = some l →
    (∀ o ∈ l, byteAt m2 (oNext base o) = byteAt mem (oNext base o)) →
    chainGo m2 base f z = some l := by
  intro f
  induction f with
  | zero => intro z l h _; simp [chainGo] at h
  | succ f ih =>
    intro z l h hag
    by_cases hz : z = 0
    · subst hz
      simp only [chainGo, if_pos rfl] at h ⊢
      exact h
    · cases hc : chainGo mem base f (byteAt mem (oNext base z)) with
      | none => rw [chainGo, if_neg hz, hc] at h; exact absurd h (by simp)
      | some l0 =>
        rw [chainGo, if_neg hz, hc] at h
        have hl : l = z :: l0 := by
          cases h
          rfl
        subst hl
        have hz2 : byteAt m2 (oNext base z) = byteAt mem (oNext base z) :=
          hag z (by simp)
        rw [chainGo, if_neg hz, hz2,
          ih _ _ hc (fun o ho => hag o (by simp [ho]))]

theorem chainGo_mono (mem : List Nat) (base : Nat) :
    ∀ (f z : Nat) (l : List Nat) (k : Nat), chainGo mem base f z = some l →
    chainGo mem base (f + k) z = some l := by
  intro f
  induction f with
  | zero => intro z l k h; simp [chainGo] at h
  | succ f ih =>
    intro z l k h
    by_cases hz : z = 0
    · subst hz
      simp only [chainGo, if_pos rfl] at h
      have : f + 1 + k = (f + k) + 1 := by omega
      rw [this, chainGo, if_pos rfl]
      exact h
    · cases hc : chainGo mem base f (byteAt mem (oNext base z)) with
      | none => rw [chainGo, if_neg hz, hc] at h; exact absurd h (by simp)
      | some l0 =>
        rw [chainGo, if_neg hz, hc] at h
        have : f + 1 + k = (f + k) + 1 := by omega
        rw [this, chainGo, if_neg hz, ih _ _ k hc]
        exact h

theorem chainGo_fuel (mem : List Nat) (base : Nat) :
    ∀ (f z : Nat) (l : List Nat), chainGo mem base f z = some l →
    ∀ f2, l.length < f2 → chainGo mem base f2 z = some l := by
  intro f
  induction f with
  | zero => intro z l h; simp [chainGo] at h
  | succ f ih =>
    intro z l h f2 hf2
    by_cases hz : z = 0
    · subst hz
      simp only [chainGo, if_pos rfl] at h
      cases f2 with
      | zero => omega
      | succ f3 => rw [chainGo, if_pos rfl]; exact h
    · cases hc : chainGo mem base f (byteAt mem (oNext base z)) with
      | none => rw [chainGo, if_neg hz, hc] at h; exact absurd h (by simp)
      | some l0 =>
        rw [chainGo, if_neg hz, hc] at h
        have hl : l = z :: l0 := by
          cases h
          rfl
        subst hl
        cases f2 with
        | zero => omega
        | succ f3 =>
          rw [chainGo, if_neg hz, ih _ _ hc f3 (by simp at hf2; omega)]

theorem chainGo_suffix (mem : List Nat) (base : Nat) :
    ∀ (f z : Nat) (l : List Nat), chainGo mem base f z = some l →
    ∀ i (hi : i < l.length), ∃ f2, chainGo mem base f2 (l.get ⟨i, hi⟩) =
      some (l.drop i) := by
  intro f
  induction f with
  | zero => intro z l h; simp [chainGo] at h
  | succ f ih =>
    intro z l h i hi
    by_cases hz : z = 0
    · subst hz
      simp only [chainGo, if_pos rfl] at h
      cases h
      simp at hi
    · cases hc : chainGo mem base f (byteAt mem (oNext base z)) with
      | none => rw [chainGo, if_neg hz, hc] at h; exact absurd h (by simp)
      | some l0 =>
        rw [chainGo, if_neg hz, hc] at h
        have hl : l = z :: l0 := by
          cases h
          rfl
        subst hl
        cases i with
        | zero =>
          refine ⟨f + 1, ?_⟩
          simp only [List.get, List.drop_zero]
          rw [chainGo, if_neg hz, hc]
        | succ i =>
          have hi0 : i < l0.length := by simp at hi; omega
          obtain ⟨f2, hf2⟩ := ih _ _ hc i hi0
          exact ⟨f2, hf2⟩

theorem chainGo_nodup (mem : List Nat) (base f z : Nat) (l : List Nat)
    (h : chainGo mem base f z = some l) : l.Nodup := by
  rw [List.nodup_iff_injective_get]
  intro i j hij
  obtain ⟨fi, hfi⟩ := chainGo_suffix mem base f z l h i.1 i.2
  obtain ⟨fj, hfj⟩ := chainGo_suffix mem base f z l h j.1 j.2
  rw [hij] at hfi
  have h1 := chainGo_mono mem base fi _ _ fj hfi
  have h2 := chainGo_mono mem base fj _ _ fi hfj
  rw [Nat.add_comm] at h2
  rw [h2] at h1
  have hlen : l.length - j.1 = l.length - i.1 := by
    have := congrArg (fun o => (o.getD []).length) h1
    simpa using this
  have hi := i.2
  have hj := j.2
  exact Fin.ext (by omega)

theorem chainGo_bound (mem : List Nat) (base N : Nat)
    (hval : ∀ o, 1 ≤ o → o ≤ N → byteAt mem (oNext base o) ≤ N) :
    ∀ (f z : Nat) (l : List Nat), chainGo mem base f z = some l → z ≤ N →
    ∀ o ∈ l, 1 ≤ o ∧ o ≤ N := by
  intro f
  induction f with
  | zero => intro z l h; simp [chainGo] at h
  | succ f ih =>
    intro z l h hzN
    by_cases hz : z = 0
    · subst hz
      simp only [chainGo, if_pos rfl] at h
      cases h
      simp
    · cases hc : chainGo mem base f (byteAt mem (oNext base z)) with
      | none => rw [chainGo, if_neg hz, hc] at h; exact absurd h (by simp)
      | some l0 =>
        rw [chainGo, if_neg hz, hc] at h
        have hl : l = z :: l0 := by
          cases h
          rfl
        subst hl
        intro o ho
        rcases List.mem_cons.mp ho with rfl | ho0
        · exact ⟨by omega, hzN⟩
        · exact ih _ _ hc (hval z (by omega) hzN) o ho0

theorem chain_length_le (l : List Nat) (N : Nat) (hn : l.Nodup)
    (hb : ∀ o ∈ l, 1 ≤ o ∧ o ≤ N) : l.length ≤ N := by
  have hsub : l.toFinset ⊆ Finset.Icc 1 N := by
    intro o ho
    rw [List.mem_toFinset] at ho
    exact Finset.mem_Icc.mpr (hb o ho)
  have hcard := Finset.card_le_card hsub
  rw [List.toFinset_card_of_nodup hn, Nat.card_Icc] at hcard
  omega

theorem chainGo_head (mem : List Nat) (base f z b : Nat) (t : List Nat)
    (h : chainGo mem base f z = some (b :: t)) :
    z = b ∧ z ≠ 0 ∧ chainGo mem base (f - 1) (byteAt mem (oNext base z)) =
      some t := by
  cases f with
  | zero => simp [chainGo] at h
  | succ f =>
    by_cases hz : z = 0
    · subst hz
      simp only [chainGo, if_pos rfl] at h
      exact absurd h (by simp)
    · cases hc : chainGo mem base f (byteAt mem (oNext base z)) with
      | none => rw [chainGo, if_neg hz, hc] at h; exact absurd h (by simp)
      | some l0 =>
        rw [chainGo, if_neg hz, hc] at h
        have hl : z :: l0 = b :: t := by
          cases h
          rfl
        refine ⟨by injection hl, hz, ?_⟩
        have : l0 = t := by injection hl
        subst this
        simpa using hc

theorem chainGo_length_lt (mem : List Nat) (base : Nat) :
    ∀ (f z : Nat) (l : List Nat), chainGo mem base f z = some l →
    l.length < f := by
  intro f
  induction f with
  | zero => intro z l h; simp [chainGo] at h
  | succ f ih =>
    intro z l h
    by_cases hz : z = 0
    · subst hz
      simp only [chainGo, if_pos rfl] at h
      cases h
      simp
    · cases hc : chainGo mem base f (byteAt mem (oNext base z)) with
      | none => rw [chainGo, if_neg hz, hc] at h; exact absurd h (by simp)
      | some l0 =>
        rw [chainGo, if_neg hz, hc] at h
        have hl : l = z :: l0 := by
          cases h
          rfl
        subst hl
        have := ih _ _ hc
        simp
        omega

theorem findPrev_of_chain (mem : List Nat) (base x w : Nat) (l2 : List Nat) :
    ∀ (l1 : List Nat) (f z : Nat),
    chainGo mem base f z = some (l1 ++ w :: x :: l2) →
    x ∉ l1 → x ≠ w →
    ∀ g, l1.length < g → findPrev mem base x g z = some w := by
  intro l1
  induction l1 with
  | nil =>
    intro f z h hx hxw g hg
    obtain ⟨hzw, hz0, h2⟩ := chainGo_head mem base f z w (x :: l2) h
    subst hzw
    obtain ⟨hnx, _, _⟩ := chainGo_head mem base (f - 1) _ x l2 h2
    cases g with
    | zero => omega
    | succ g2 =>
      rw [findPrev, if_pos hnx]
  | cons a l1' ih =>
    intro f z h hx hxw g hg
    obtain ⟨hza, hz0, h2⟩ :=
      chainGo_head mem base f z a (l1' ++ w :: x :: l2) (by simpa using h)
    subst hza
    have hne : byteAt mem (oNext base z) = x → False := by
      intro hcontra
      rw [hcontra] at h2
      cases l1' with
      | nil =>
        obtain ⟨hxw2, _, _⟩ :=
          chainGo_head mem base (f - 1) x w (x :: l2) (by simpa using h2)
        exact hxw hxw2
      | cons b l1b =>
        obtain ⟨hxb, _, _⟩ :=
          chainGo_head mem base (f - 1) x b (l1b ++ w :: x :: l2)
            (by simpa using h2)
        exact hx (by simp [hxb])
    cases g with
    | zero => simp at hg
    | succ g2 =>
      rw [findPrev, if_neg hne]
      exact ih (f - 1) _ h2 (fun hc => hx (by simp [hc])) hxw g2
        (by simp at hg; omega)

theorem chainGo_graft (mem m1 : List Nat) (base w x : Nat) (l2 : List Nat)
    (hm1w : byteAt m1 (oNext base w) = byteAt mem (oNext base x))
    (hrest : ∀ o, o ≠ w → byteAt m1 (oNext base o) = byteAt mem (oNext base o))
    (hwx : w ≠ x) (hwl2 : w ∉ l2) :
    ∀ (l1 : List Nat) (f z : Nat),
    chainGo mem base f z = some (l1 ++ w :: x :: l2) → w ∉ l1 →
    chainGo m1 base f z = some (l1 ++ w :: l2) := by
  intro l1
  induction l1 with
  | nil =>
    intro f z h hw1
    have hflen := chainGo_length_lt mem base f z _ h
    obtain ⟨hzw, hz0, h2⟩ := chainGo_head mem base f z w (x :: l2) h
    subst hzw
    obtain ⟨hnx, hx0, h3⟩ := chainGo_head mem base (f - 1) _ x l2 h2
    rw [hnx] at h3
    have h3m : chainGo m1 base (f - 1 - 1) (byteAt mem (oNext base x)) =
        some l2 :=
      chainGo_congr mem m1 base _ _ _ h3
        (fun o ho => hrest o (fun he => hwl2 (he ▸ ho)))
    cases f with
    | zero => simp [chainGo] at h
    | succ f2 =>
      have h3f : chainGo m1 base f2 (byteAt mem (oNext base x)) = some l2 :=
        chainGo_fuel m1 base _ _ _ h3m f2 (by simp at hflen; omega)
      rw [chainGo, if_neg hz0, hm1w, h3f]
      simp
  | cons a l1' ih =>
    intro f z h hw1
    obtain ⟨hza, hz0, h2⟩ :=
      chainGo_head mem base f z a (l1' ++ w :: x :: l2) (by simpa using h)
    subst hza
    have hna : byteAt m1 (oNext base z) = byteAt mem (oNext base z) :=
      hrest z (fun he => hw1 (by simp [he]))
    have ihres := ih (f - 1) _ h2 (fun hc => hw1 (by simp [hc]))
    cases f with
    | zero => simp [chainGo] at h
    | succ f2 =>
      simp only [Nat.succ_sub_one] at ihres
      rw [chainGo, if_neg hz0, hna, ihres]
      simp

theorem chain_congr (m m2 : List Nat) (base r : Nat) (l : List Nat)
    (h : chain m base r = some l)
    (hf : byteAt m2 (oFirst base r) = byteAt m (oFirst base r))
    (hn : ∀ o ∈ l, byteAt m2 (oNext base o) = byteAt m (oNext base o)) :
    chain m2 base r = some l := by
  unfold chain at h ⊢
  rw [hf]
  exact chainGo_congr m m2 base 256 _ l h hn

theorem not_mem_chain_of_prnt_ne (mem : List Nat) (base N x r : Nat)
    (hmemp : ∀ r ∈ List.range (N + 1), 1 ≤ r →
      ∀ o ∈ (chain mem base r).getD [], byteAt mem (oPrnt base o) = r)
    (hr1 : 1 ≤ r) (hrN : r ≤ N) (hne : byteAt mem (oPrnt base x) ≠ r) :
    ∀ l, chain mem base r = some l → x ∉ l := by
  intro l hl hx
  have := hmemp r (by simp; omega) hr1 x (by rw [hl]; simpa using hx)
  exact hne this

theorem moveRemove_spec (mem : List Nat) (base N x : Nat)
    (hN : N ≤ 255) (hbound : base + N * 9 + 7 ≤ mem.length)
    (hval : ∀ o ∈ List.range (N + 1), 1 ≤ o →
      byteAt mem (oPrnt base o) ≤ N ∧ byteAt mem (oNext base o) ≤ N ∧
      byteAt mem (oFirst base o) ≤ N)
    (hchain : ∀ r ∈ List.range (N + 1), 1 ≤ r →
      (chain mem base r).isSome = true)
    (hmemp : ∀ r ∈ List.range (N + 1), 1 ≤ r →
      ∀ o ∈ (chain mem base r).getD [], byteAt mem (oPrnt base o) = r)
    (hpmem : ∀ o ∈ List.range (N + 1), 1 ≤ o →
      byteAt mem (oPrnt base o) ≠ 0 →
      o ∈ (chain mem base (byteAt mem (oPrnt base o))).getD [])
    (hx1 : 1 ≤ x) (hxN : x ≤ N) :
    ∃ m1, moveRemove mem base x = some m1 ∧ m1.length = mem.length ∧
      (∀ o, byteAt m1 (oPrnt base o) = byteAt mem (oPrnt base o)) ∧
      (∀ o, 1 ≤ o → o ≤ N → byteAt m1 (oNext base o) ≤ N ∧
        byteAt m1 (oFirst base o) ≤ N) ∧
      (∀ r, 1 ≤ r → r ≤ N → r ≠ byteAt mem (oPrnt base x) →
        chain m1 base r = chain mem base r) ∧
      (byteAt mem (oPrnt base x) ≠ 0 → ∀ l,
        chain mem base (byteAt mem (oPrnt base x)) = some l →
        chain m1 base (byteAt mem (oPrnt base x)) = some (l.erase x)) ∧
      (∀ r, 1 ≤ r → r ≤ N → ∀ l, chain m1 base r = some l → x ∉ l) := by
  by_cases hpa : byteAt mem (oPrnt base x) = 0
  · refine ⟨mem, ?_, rfl, fun o => rfl, ?_, fun r _ _ _ => rfl, ?_, ?_⟩
    · simp [moveRemove, hpa]
    · intro o h1 h2
      exact ⟨(hval o (by simp; omega) h1).2.1, (hval o (by simp; omega) h1).2.2⟩
    · intro hc
      exact absurd hpa hc
    · intro r hr1 hrN l hl
      exact not_mem_chain_of_prnt_ne mem base N x r hmemp hr1 hrN
        (by rw [hpa]; omega) l hl
  · have hpaN : byteAt mem (oPrnt base x) ≤ N :=
      (hval x (by simp; omega) hx1).1
    have hpa1 : 1 ≤ byteAt mem (oPrnt base x) := by omega
    obtain ⟨l, hl⟩ : ∃ l, chain mem base (byteAt mem (oPrnt base x)) = some l :=
      Option.isSome_iff_exists.mp
        (hchain (byteAt mem (oPrnt base x)) (by simp; omega) hpa1)
    have hxl : x ∈ l := by
      have := hpmem x (by simp; omega) hx1 hpa
      rw [hl] at this
      simpa using this
    have hlgo : chainGo mem base 256
        (byteAt mem (oFirst base (byteAt mem (oPrnt base x)))) = some l := hl
    have hnodup : l.Nodup := chainGo_nodup mem base 256 _ l hlgo
    have hlbound : ∀ o ∈ l, 1 ≤ o ∧ o ≤ N :=
      chainGo_bound mem base N
        (fun o h1 h2 => (hval o (by simp; omega) h1).2.1) 256 _ l hlgo
        (hval (byteAt mem (oPrnt base x)) (by simp; omega) hpa1).2.2
    have hllen : l.length ≤ N := chain_length_le l N hnodup hlbound
    by_cases hz0 : byteAt mem (oFirst base (byteAt mem (oPrnt base x))) = x
    · -- x is its parent's first child
      obtain ⟨l2, hlx⟩ : ∃ l2, l = x :: l2 := by
        cases l with
        | nil => simp at hxl
        | cons b l2 =>
          obtain ⟨hzb, _, _⟩ := chainGo_head mem base 256 _ b l2 hlgo
          exact ⟨l2, by rw [← hz0, hzb]⟩
      subst hlx
      obtain ⟨hzb, hbz0, h2⟩ := chainGo_head mem base 256 _ x l2 hlgo
      rw [hz0] at h2
      refine ⟨setByte mem (oFirst base (byteAt mem (oPrnt base x)))
        (byteAt mem (oNext base x)), ?_, setByte_length _ _ _, ?_, ?_, ?_,
        ?_, ?_⟩
      · simp only [moveRemove]
        rw [if_pos hpa, if_pos hz0]
      · intro o
        exact byteAt_setByte_ne _ _ _ _ (by simp only [oPrnt, oFirst]; omega)
      · intro o h1 h2o
        constructor
        · rw [byteAt_setByte_ne _ _ _ _ (by simp only [oNext, oFirst]; omega)]
          exact (hval o (by simp; omega) h1).2.1
        · by_cases ho : o = byteAt mem (oPrnt base x)
          · subst ho
            rw [byteAt_setByte_self _ _ _
              (by simp only [oFirst]; omega)]
            have : byteAt mem (oNext base x) ≤ N :=
              (hval x (by simp; omega) hx1).2.1
            omega
          · rw [byteAt_setByte_ne _ _ _ _ (by simp only [oFirst]; omega)]
            exact (hval o (by simp; omega) h1).2.2
      · intro r hr1 hrN hrpa
        obtain ⟨lr, hlr⟩ : ∃ lr, chain mem base r = some lr :=
          Option.isSome_iff_exists.mp (hchain r (by simp; omega) hr1)
        rw [hlr]
        exact chain_congr mem _ base r lr hlr
          (byteAt_setByte_ne _ _ _ _ (by simp only [oFirst]; omega))
          (fun o ho => byteAt_setByte_ne _ _ _ _
            (by simp only [oNext, oFirst]; omega))
      · intro _ l' hl'
        rw [hl] at hl'
        have hll : l' = x :: l2 := by
          cases hl'
          rfl
        subst hll
        unfold chain
        rw [byteAt_setByte_self _ _ _ (by simp only [oFirst]; omega)]
        have hnx : byteAt mem (oNext base x) % 256 = byteAt mem (oNext base x) := by
          have : byteAt mem (oNext base x) ≤ N :=
            (hval x (by simp; omega) hx1).2.1
          omega
        rw [hnx, List.erase_cons_head]
        have hcg : chainGo (setByte mem
            (oFirst base (byteAt mem (oPrnt base x)))
            (byteAt mem (oNext base x))) base 255
            (byteAt mem (oNext base x)) = some l2 :=
          chainGo_congr mem _ base 255 _ l2 h2
            (fun o ho => byteAt_setByte_ne _ _ _ _
              (by simp only [oNext, oFirst]; omega))
        exact chainGo_fuel _ base 255 _ l2 hcg 256 (by simp at hllen; omega)
      · intro r hr1 hrN l' hl'
        by_cases hrpa : r = byteAt mem (oPrnt base x)
        · subst hrpa
          unfold chain at hl'
          rw [byteAt_setByte_self _ _ _ (by simp only [oFirst]; omega)] at hl'
          have hnx : byteAt mem (oNext base x) % 256 =
              byteAt mem (oNext base x) := by
            have : byteAt mem (oNext base x) ≤ N :=
              (hval x (by simp; omega) hx1).2.1
            omega
          rw [hnx] at hl'
          have hcg : chainGo (setByte mem
              (oFirst base (byteAt mem (oPrnt base x)))
              (byteAt mem (oNext base x))) base 255
              (byteAt mem (oNext base x)) = some l2 :=
            chainGo_congr mem _ base 255 _ l2 h2
              (fun o ho => byteAt_setByte_ne _ _ _ _
                (by simp only [oNext, oFirst]; omega))
          have hcg2 := chainGo_fuel _ base 255 _ l2 hcg 256
            (by simp at hllen; omega)
          rw [hcg2] at hl'
          have hll : l' = l2 := by
            cases hl'
            rfl
          subst hll
          have := List.nodup_cons.mp hnodup
          exact this.1
        · intro hmem
          obtain ⟨lr, hlr⟩ : ∃ lr, chain mem base r = some lr :=
            Option.isSome_iff_exists.mp (hchain r (by simp; omega) hr1)
          have heq : chain (setByte mem
              (oFirst base (byteAt mem (oPrnt base x)))
              (byteAt mem (oNext base x))) base r = some lr :=
            chain_congr mem _ base r lr hlr
              (byteAt_setByte_ne _ _ _ _ (by simp only [oFirst]; omega))
              (fun o ho => byteAt_setByte_ne _ _ _ _
                (by simp only [oNext, oFirst]; omega))
          rw [heq] at hl'
          have hll : lr = l' := Option.some.inj hl'
          rw [← hll] at hmem
          exact not_mem_chain_of_prnt_ne mem base N x r hmemp hr1 hrN
            (fun hc => hrpa hc.symm) lr hlr hmem
    · -- x is found by the sibling walk
      obtain ⟨s, t, hst⟩ := List.append_of_mem hxl
      have hsne : s ≠ [] := by
        intro hse
        subst hse
        simp only [List.nil_append] at hst
        rw [hst] at hlgo
        obtain ⟨hzx, _, _⟩ := chainGo_head mem base 256 _ x t hlgo
        exact hz0 hzx
      obtain ⟨l1, w, hs⟩ : ∃ l1 w, s = l1 ++ [w] := by
        rcases List.eq_nil_or_concat s with h | ⟨l1, w, h⟩
        · exact absurd h hsne
        · exact ⟨l1, w, by rw [h]; simp⟩
      have hldec : l = l1 ++ w :: x :: t := by
        rw [hst, hs, List.append_assoc]
        rfl
      have hnd2 : (l1 ++ w :: x :: t).Nodup := by rw [← hldec]; exact hnodup
      have hxl1 : x ∉ l1 := by
        intro hc
        rw [List.nodup_append] at hnd2
        exact hnd2.2.2 hc (by simp)
      have hxw : x ≠ w := by
        intro hc
        rw [List.nodup_append] at hnd2
        have := hnd2.2.1
        rw [List.nodup_cons] at this
        exact this.1 (by simp [← hc])
      have hwl1 : w ∉ l1 := by
        intro hc
        rw [List.nodup_append] at hnd2
        exact hnd2.2.2 hc (by simp)
      have hwt : w ∉ t := by
        rw [List.nodup_append] at hnd2
        have := hnd2.2.1
        rw [List.nodup_cons] at this
        intro hc
        exact this.1 (by simp [hc])
      have hxt : x ∉ t := by
        rw [List.nodup_append] at hnd2
        have := hnd2.2.1
        rw [List.nodup_cons] at this
        have := this.2
        rw [List.nodup_cons] at this
        exact this.1
      have hwl : w ∈ l := by rw [hldec]; simp
      have hwN : w ≤ N := (hlbound w hwl).2
      have hw1 : 1 ≤ w := (hlbound w hwl).1
      have hlgo2 : chainGo mem base 256
          (byteAt mem (oFirst base (byteAt mem (oPrnt base x)))) =
          some (l1 ++ w :: x :: t) := by rw [← hldec]; exact hlgo
      have hl1len : l1.length < 256 := by
        have : l.length = l1.length + (x :: t).length + 1 := by
          rw [hldec]
          simp
          omega
        simp at this
        omega
      have hfp : findPrev mem base x 256
          (byteAt mem (oFirst base (byteAt mem (oPrnt base x)))) = some w :=
        findPrev_of_chain mem base x w t l1 256 _ hlgo2 hxl1 hxw 256 hl1len
      refine ⟨setByte mem (oNext base w) (byteAt mem (oNext base x)), ?_,
        setByte_length _ _ _, ?_, ?_, ?_, ?_, ?_⟩
      · simp only [moveRemove]
        rw [if_pos hpa, if_neg hz0, hfp]
      · intro o
        exact byteAt_setByte_ne _ _ _ _ (by simp only [oPrnt, oNext]; omega)
      · intro o h1 h2o
        constructor
        · by_cases ho : o = w
          · subst ho
            rw [byteAt_setByte_self _ _ _ (by simp only [oNext]; omega)]
            have : byteAt mem (oNext base x) ≤ N :=
              (hval x (by simp; omega) hx1).2.1
            omega
          · rw [byteAt_setByte_ne _ _ _ _ (by simp only [oNext]; omega)]
            exact (hval o (by simp; omega) h1).2.1
        · rw [byteAt_setByte_ne _ _ _ _ (by simp only [oNext, oFirst]; omega)]
          exact (hval o (by simp; omega) h1).2.2
      · intro r hr1 hrN hrpa
        obtain ⟨lr, hlr⟩ : ∃ lr, chain mem base r = some lr :=
          Option.isSome_iff_exists.mp (hchain r (by simp; omega) hr1)
        rw [hlr]
        refine chain_congr mem _ base r lr hlr
          (byteAt_setByte_ne _ _ _ _ (by simp only [oFirst, oNext]; omega))
          (fun o ho => byteAt_setByte_ne _ _ _ _ ?_)
        have how : o ≠ w := by
          intro hc
          have h1 := hmemp r (by simp; omega) hr1 o (by rw [hlr]; simpa using ho)
          have h2 := hmemp (byteAt mem (oPrnt base x)) (by simp; omega) hpa1 w
            (by rw [hl]; simpa using hwl)
          rw [hc] at h1
          rw [h1] at h2
          exact hrpa h2
        simp only [oNext]
        omega
      · intro _ l' hl'
        rw [hl] at hl'
        have hll := Option.some.inj hl'
        subst hll
        have hvx : byteAt mem (oNext base x) ≤ N :=
          (hval x (by simp; omega) hx1).2.1
        have hm1w : byteAt (setByte mem (oNext base w)
            (byteAt mem (oNext base x))) (oNext base w) =
            byteAt mem (oNext base x) := by
          rw [byteAt_setByte_self _ _ _ (by simp only [oNext]; omega)]
          omega
        have hrest : ∀ o, o ≠ w →
            byteAt (setByte mem (oNext base w) (byteAt mem (oNext base x)))
              (oNext base o) = byteAt mem (oNext base o) :=
          fun o ho => byteAt_setByte_ne _ _ _ _ (by simp only [oNext]; omega)
        have hgr := chainGo_graft mem _ base w x t hm1w hrest
          (fun hc => hxw hc.symm) hwt l1 256 _ hlgo2 hwl1
        unfold chain
        rw [byteAt_setByte_ne _ _ _ _ (by simp only [oFirst, oNext]; omega)]
        rw [hgr]
        have herase : l.erase x = l1 ++ w :: t := by
          rw [hldec, List.erase_append_right _ hxl1]
          congr 1
          rw [List.erase_cons_tail, List.erase_cons_head]
          simp [hxw]
          intro hc
          exact hxw hc.symm
        rw [herase]
      · intro r hr1 hrN l' hl'
        by_cases hrpa : r = byteAt mem (oPrnt base x)
        · subst hrpa
          have hvx : byteAt mem (oNext base x) ≤ N :=
            (hval x (by simp; omega) hx1).2.1
          have hm1w : byteAt (setByte mem (oNext base w)
              (byteAt mem (oNext base x))) (oNext base w) =
              byteAt mem (oNext base x) := by
            rw [byteAt_setByte_self _ _ _ (by simp only [oNext]; omega)]
            omega
          have hrest : ∀ o, o ≠ w →
              byteAt (setByte mem (oNext base w) (byteAt mem (oNext base x)))
                (oNext base o) = byteAt mem (oNext base o) :=
            fun o ho => byteAt_setByte_ne _ _ _ _ (by simp only [oNext]; omega)
          have hgr := chainGo_graft mem _ base w x t hm1w hrest
            (fun hc => hxw hc.symm) hwt l1 256 _ hlgo2 hwl1
          unfold chain at hl'
          rw [byteAt_setByte_ne _ _ _ _
            (by simp only [oFirst, oNext]; omega), hgr] at hl'
          have hll : l' = l1 ++ w :: t := by
            cases hl'
            rfl
          subst hll
          intro hc
          rcases List.mem_append.mp hc with hc1 | hc2
          · exact hxl1 hc1
          · rcases List.mem_cons.mp hc2 with hc3 | hc4
            · exact hxw hc3
            · exact hxt hc4
        · intro hmem
          obtain ⟨lr, hlr⟩ : ∃ lr, chain mem base r = some lr :=
            Option.isSome_iff_exists.mp (hchain r (by simp; omega) hr1)
          have heq : chain (setByte mem (oNext base w)
              (byteAt mem (oNext base x))) base r = some lr := by
            refine chain_congr mem _ base r lr hlr
              (byteAt_setByte_ne _ _ _ _ (by simp only [oFirst, oNext]; omega))
              (fun o ho => byteAt_setByte_ne _ _ _ _ ?_)
            have how : o ≠ w := by
              intro hc
              have h1 := hmemp r (by simp; omega) hr1 o
                (by rw [hlr]; simpa using ho)
              have h2 := hmemp (byteAt mem (oPrnt base x)) (by simp; omega)
                hpa1 w (by rw [hl]; simpa using hwl)
              rw [hc] at h1
              rw [h1] at h2
              exact hrpa h2
            simp only [oNext]
            omega
          rw [heq] at hl'
          have hll : lr = l' := Option.some.inj hl'
          rw [← hll] at hmem
          exact not_mem_chain_of_prnt_ne mem base N x r hmemp hr1 hrN
            (fun hc => hrpa hc.symm) lr hlr hmem

theorem chainGo_cons (mem : List Nat) (base f z : Nat) (l : List Nat)
    (hz : z ≠ 0)
    (h : chainGo mem base f (byteAt mem (oNext base z)) = some l) :
    chainGo mem base (f + 1) z = some (z :: l) := by
  rw [chainGo, if_neg hz, h]

theorem move_wf (mem : List Nat) (base N x y : Nat) (hwf : WF mem base N)
    (hx1 : 1 ≤ x) (hxN : x ≤ N) (hyN : y ≤ N) (hxy : x ≠ y) :
    ∃ m2, move mem base x y = some m2 ∧ WF m2 base N ∧
      byteAt m2 (oPrnt base x) = y ∧
      (y = 0 → byteAt m2 (oNext base x) = 0) ∧
      (∀ l, byteAt mem (oPrnt base x) ≠ 0 → byteAt mem (oPrnt base x) ≠ y →
        chain mem base (byteAt mem (oPrnt base x)) = some l →
        chain m2 base (byteAt mem (oPrnt base x)) = some (l.erase x)) := by
  unfold WF at hwf
  obtain ⟨hN, hbound, hval, hchain, hmemp, hpmem⟩ := hwf
  obtain ⟨m1, hrem, hlen1, hprnt1, hvalnf1, hchains1, herase1, hnot1⟩ :=
    moveRemove_spec mem base N x hN hbound hval hchain hmemp hpmem hx1 hxN
  have hbound1 : base + N * 9 + 7 ≤ m1.length := by rw [hlen1]; exact hbound
  have hpaN : byteAt mem (oPrnt base x) ≤ N := (hval x (by simp; omega) hx1).1
  have hchain1 : ∀ r, 1 ≤ r → r ≤ N → ∃ lr, chain m1 base r = some lr := by
    intro r hr1 hrN
    by_cases hrpa : r = byteAt mem (oPrnt base x)
    · obtain ⟨l, hl⟩ := Option.isSome_iff_exists.mp
        (hchain r (by simp; omega) hr1)
      rw [hrpa] at hl
      refine ⟨l.erase x, ?_⟩
      rw [hrpa]
      exact herase1 (by omega) l hl
    · obtain ⟨l, hl⟩ := Option.isSome_iff_exists.mp
        (hchain r (by simp; omega) hr1)
      exact ⟨l, by rw [hchains1 r hr1 hrN hrpa]; exact hl⟩
  have hmemp1 : ∀ r, 1 ≤ r → r ≤ N → ∀ lr, chain m1 base r = some lr →
      ∀ o ∈ lr, byteAt m1 (oPrnt base o) = r := by
    intro r hr1 hrN lr hlr o ho
    rw [hprnt1 o]
    by_cases hrpa : r = byteAt mem (oPrnt base x)
    · obtain ⟨l, hl⟩ := Option.isSome_iff_exists.mp
        (hchain r (by simp; omega) hr1)
      have hm1pa := herase1 (by omega : byteAt mem (oPrnt base x) ≠ 0)
        l (by rw [← hrpa]; exact hl)
      rw [hrpa] at hlr
      rw [hm1pa] at hlr
      have hle := Option.some.inj hlr
      subst hle
      have hol : o ∈ l := List.mem_of_mem_erase ho
      exact hmemp r (by simp; omega) hr1 o (by rw [hl]; simpa using hol)
    · rw [hchains1 r hr1 hrN hrpa] at hlr
      exact hmemp r (by simp; omega) hr1 o (by rw [hlr]; simpa using ho)
  have hpmem1 : ∀ o, 1 ≤ o → o ≤ N → o ≠ x →
      byteAt m1 (oPrnt base o) ≠ 0 →
      ∃ lr, chain m1 base (byteAt m1 (oPrnt base o)) = some lr ∧ o ∈ lr := by
    intro o ho1 hoN hox hpo
    rw [hprnt1 o] at hpo ⊢
    have hpoN : byteAt mem (oPrnt base o) ≤ N :=
      (hval o (by simp; omega) ho1).1
    have homem := hpmem o (by simp; omega) ho1 hpo
    obtain ⟨l, hl⟩ := Option.isSome_iff_exists.mp
      (hchain (byteAt mem (oPrnt base o)) (by simp; omega) (by omega))
    rw [hl] at homem
    simp only [Option.getD_some] at homem
    by_cases hpopa : byteAt mem (oPrnt base o) = byteAt mem (oPrnt base x)
    · have hm1pa := herase1 (by omega : byteAt mem (oPrnt base x) ≠ 0)
        l (by rw [← hpopa]; exact hl)
      refine ⟨l.erase x, ?_, ?_⟩
      · rw [hpopa]
        exact hm1pa
      · exact (List.mem_erase_of_ne hox).mpr homem
    · refine ⟨l, ?_, homem⟩
      rw [hchains1 _ (by omega) hpoN hpopa]
      exact hl
  by_cases hy0 : y = 0
  · subst hy0
    refine ⟨setByte (setByte m1 (oPrnt base x) 0) (oNext base x) 0,
      ?_, ?_, ?_, ?_, ?_⟩
    · simp only [move, hrem]
      simp
    · -- WF is preserved
      have hprnt2 : ∀ o, o ≠ x →
          byteAt (setByte (setByte m1 (oPrnt base x) 0) (oNext base x) 0)
            (oPrnt base o) = byteAt m1 (oPrnt base o) := by
        intro o ho
        rw [byteAt_setByte_ne _ _ _ _ (by simp only [oPrnt, oNext]; omega),
          byteAt_setByte_ne _ _ _ _ (by simp only [oPrnt]; omega)]
      have hpx2 : byteAt (setByte (setByte m1 (oPrnt base x) 0)
          (oNext base x) 0) (oPrnt base x) = 0 := by
        rw [byteAt_setByte_ne _ _ _ _ (by simp only [oPrnt, oNext]; omega),
          byteAt_setByte_self _ _ _ (by simp only [oPrnt]; omega)]
      have hnx2 : byteAt (setByte (setByte m1 (oPrnt base x) 0)
          (oNext base x) 0) (oNext base x) = 0 := by
        rw [byteAt_setByte_self _ _ _
          (by rw [setByte_length]; simp only [oNext]; omega)]
      have hnext2 : ∀ o, o ≠ x →
          byteAt (setByte (setByte m1 (oPrnt base x) 0) (oNext base x) 0)
            (oNext base o) = byteAt m1 (oNext base o) := by
        intro o ho
        rw [byteAt_setByte_ne _ _ _ _ (by simp only [oNext]; omega),
          byteAt_setByte_ne _ _ _ _ (by simp only [oNext, oPrnt]; omega)]
      have hfst2 : ∀ o,
          byteAt (setByte (setByte m1 (oPrnt base x) 0) (oNext base x) 0)
            (oFirst base o) = byteAt m1 (oFirst base o) := by
        intro o
        rw [byteAt_setByte_ne _ _ _ _ (by simp only [oFirst, oNext]; omega),
          byteAt_setByte_ne _ _ _ _ (by simp only [oFirst, oPrnt]; omega)]
      have hcheq : ∀ r, 1 ≤ r → r ≤ N → ∀ lr, chain m1 base r = some lr →
          chain (setByte (setByte m1 (oPrnt base x) 0) (oNext base x) 0)
            base r = some lr := by
        intro r hr1 hrN lr hlr
        refine chain_congr m1 _ base r lr hlr (hfst2 r) (fun o ho => ?_)
        exact hnext2 o (fun he => hnot1 r hr1 hrN lr hlr (he ▸ ho))
      unfold WF
      refine ⟨hN, ?_, ?_, ?_, ?_, ?_⟩
      · rw [setByte_length, setByte_length]
        exact hbound1
      · intro o ho ho1
        by_cases hox : o = x
        · subst hox
          rw [hpx2, hnx2, hfst2]
          exact ⟨by omega, by omega, (hvalnf1 o ho1 (by simp at ho; omega)).2⟩
        · rw [hprnt2 o hox, hnext2 o hox, hfst2, hprnt1 o]
          exact ⟨(hval o ho ho1).1, (hvalnf1 o ho1 (by simp at ho; omega)).1,
            (hvalnf1 o ho1 (by simp at ho; omega)).2⟩
      · intro r hr hr1
        obtain ⟨lr, hlr⟩ := hchain1 r hr1 (by simp at hr; omega)
        rw [hcheq r hr1 (by simp at hr; omega) lr hlr]
        rfl
      · intro r hr hr1 o ho
        obtain ⟨lr, hlr⟩ := hchain1 r hr1 (by simp at hr; omega)
        rw [hcheq r hr1 (by simp at hr; omega) lr hlr] at ho
        simp only [Option.getD_some] at ho
        have hox : o ≠ x := fun he =>
          hnot1 r hr1 (by simp at hr; omega) lr hlr (he ▸ ho)
        rw [hprnt2 o hox]
        exact hmemp1 r hr1 (by simp at hr; omega) lr hlr o ho
      · intro o ho ho1 hop
        by_cases hox : o = x
        · subst hox
          rw [hpx2] at hop
          omega
        · rw [hprnt2 o hox] at hop ⊢
          obtain ⟨lr, hlr, holr⟩ :=
            hpmem1 o ho1 (by simp at ho; omega) hox hop
          have hprN : byteAt m1 (oPrnt base o) ≤ N := by
            rw [hprnt1 o]
            exact (hval o ho ho1).1
          rw [hcheq _ (by omega) hprN lr hlr]
          simpa using holr
    · rw [byteAt_setByte_ne _ _ _ _ (by simp only [oPrnt, oNext]; omega),
        byteAt_setByte_self _ _ _ (by simp only [oPrnt]; omega)]
    · intro _
      rw [byteAt_setByte_self _ _ _
        (by rw [setByte_length]; simp only [oNext]; omega)]
    · intro l hpa0 hpay hl
      have hm1pa := herase1 hpa0 l hl
      have hfst2 : ∀ o,
          byteAt (setByte (setByte m1 (oPrnt base x) 0) (oNext base x) 0)
            (oFirst base o) = byteAt m1 (oFirst base o) := by
        intro o
        rw [byteAt_setByte_ne _ _ _ _ (by simp only [oFirst, oNext]; omega),
          byteAt_setByte_ne _ _ _ _ (by simp only [oFirst, oPrnt]; omega)]
      have hnext2 : ∀ o, o ≠ x →
          byteAt (setByte (setByte m1 (oPrnt base x) 0) (oNext base x) 0)
            (oNext base o) = byteAt m1 (oNext base o) := by
        intro o ho
        rw [byteAt_setByte_ne _ _ _ _ (by simp only [oNext]; omega),
          byteAt_setByte_ne _ _ _ _ (by simp only [oNext, oPrnt]; omega)]
      refine chain_congr m1 _ base _ _ hm1pa (hfst2 _) (fun o ho => ?_)
      refine hnext2 o (fun he => ?_)
      exact hnot1 _ (by omega) hpaN _ hm1pa (he ▸ ho)
  · -- y ≠ 0: insert x at the front of the chain of y
    have hy1 : 1 ≤ y := by omega
    have hfy : byteAt (setByte m1 (oPrnt base x) y) (oFirst base y) =
        byteAt m1 (oFirst base y) :=
      byteAt_setByte_ne _ _ _ _ (by simp only [oFirst, oPrnt]; omega)
    have hfyN : byteAt m1 (oFirst base y) ≤ N := (hvalnf1 y hy1 hyN).2
    have hprnt2 : ∀ o, o ≠ x →
        byteAt (setByte (setByte (setByte m1 (oPrnt base x) y)
          (oNext base x) (byteAt m1 (oFirst base y))) (oFirst base y) x)
          (oPrnt base o) = byteAt m1 (oPrnt base o) := by
      intro o ho
      rw [byteAt_setByte_ne _ _ _ _ (by simp only [oPrnt, oFirst]; omega),
        byteAt_setByte_ne _ _ _ _ (by simp only [oPrnt, oNext]; omega),
        byteAt_setByte_ne _ _ _ _ (by simp only [oPrnt]; omega)]
    have hpx2 : byteAt (setByte (setByte (setByte m1 (oPrnt base x) y)
        (oNext base x) (byteAt m1 (oFirst base y))) (oFirst base y) x)
        (oPrnt base x) = y := by
      rw [byteAt_setByte_ne _ _ _ _ (by simp only [oPrnt, oFirst]; omega),
        byteAt_setByte_ne _ _ _ _ (by simp only [oPrnt, oNext]; omega),
        byteAt_setByte_self _ _ _ (by simp only [oPrnt]; omega)]
      omega
    have hnx2 : byteAt (setByte (setByte (setByte m1 (oPrnt base x) y)
        (oNext base x) (byteAt m1 (oFirst base y))) (oFirst base y) x)
        (oNext base x) = byteAt m1 (oFirst base y) := by
      rw [byteAt_setByte_ne _ _ _ _ (by simp only [oNext, oFirst]; omega),
        byteAt_setByte_self _ _ _
          (by rw [setByte_length]; simp only [oNext]; omega)]
      omega
    have hnext2 : ∀ o, o ≠ x →
        byteAt (setByte (setByte (setByte m1 (oPrnt base x) y)
          (oNext base x) (byteAt m1 (oFirst base y))) (oFirst base y) x)
          (oNext base o) = byteAt m1 (oNext base o) := by
      intro o ho
      rw [byteAt_setByte_ne _ _ _ _ (by simp only [oNext, oFirst]; omega),
        byteAt_setByte_ne _ _ _ _ (by simp only [oNext]; omega),
        byteAt_setByte_ne _ _ _ _ (by simp only [oNext, oPrnt]; omega)]
    have hfy2 : byteAt (setByte (setByte (setByte m1 (oPrnt base x) y)
        (oNext base x) (byteAt m1 (oFirst base y))) (oFirst base y) x)
        (oFirst base y) = x := by
      rw [byteAt_setByte_self _ _ _
        (by rw [setByte_length, setByte_length]; simp only [oFirst]; omega)]
      omega
    have hfst2 : ∀ o, o ≠ y →
        byteAt (setByte (setByte (setByte m1 (oPrnt base x) y)
          (oNext base x) (byteAt m1 (oFirst base y))) (oFirst base y) x)
          (oFirst base o) = byteAt m1 (oFirst base o) := by
      intro o ho
      rw [byteAt_setByte_ne _ _ _ _ (by simp only [oFirst]; omega),
        byteAt_setByte_ne _ _ _ _ (by simp only [oFirst, oNext]; omega),
        byteAt_setByte_ne _ _ _ _ (by simp only [oFirst, oPrnt]; omega)]
    obtain ⟨ly, hly⟩ := hchain1 y hy1 hyN
    have hxly : x ∉ ly := hnot1 y hy1 hyN ly hly
    have hlygo : chainGo m1 base 256 (byteAt m1 (oFirst base y)) = some ly :=
      hly
    have hlynd : ly.Nodup := chainGo_nodup m1 base 256 _ ly hlygo
    have hlyb : ∀ o ∈ ly, 1 ≤ o ∧ o ≤ N :=
      chainGo_bound m1 base N (fun o h1 h2 => (hvalnf1 o h1 h2).1) 256 _ ly
        hlygo hfyN
    have hlylen : ly.length + 1 ≤ N := by
      have h1 : (x :: ly).Nodup := List.nodup_cons.mpr ⟨hxly, hlynd⟩
      have h2 : ∀ o ∈ x :: ly, 1 ≤ o ∧ o ≤ N := by
        intro o ho
        rcases List.mem_cons.mp ho with rfl | ho2
        · exact ⟨hx1, hxN⟩
        · exact hlyb o ho2
      have := chain_length_le (x :: ly) N h1 h2
      simpa using this
    have hlygo2 : chainGo (setByte (setByte (setByte m1 (oPrnt base x) y)
        (oNext base x) (byteAt m1 (oFirst base y))) (oFirst base y) x)
        base 256 (byteAt m1 (oFirst base y)) = some ly :=
      chainGo_congr m1 _ base 256 _ ly hlygo
        (fun o ho => hnext2 o (fun he => hxly (he ▸ ho)))
    have hchy2 : chain (setByte (setByte (setByte m1 (oPrnt base x) y)
        (oNext base x) (byteAt m1 (oFirst base y))) (oFirst base y) x)
        base y = some (x :: ly) := by
      unfold chain
      rw [hfy2]
      have hinner : chainGo (setByte (setByte (setByte m1 (oPrnt base x) y)
          (oNext base x) (byteAt m1 (oFirst base y))) (oFirst base y) x)
          base 255 (byteAt m1 (oFirst base y)) = some ly :=
        chainGo_fuel _ base 256 _ ly hlygo2 255 (by omega)
      have hco := chainGo_cons _ base 255 x ly (by omega)
        (by rw [hnx2]; exact hinner)
      norm_num at hco
      exact hco
    have hch2 : ∀ r, 1 ≤ r → r ≤ N → r ≠ y → ∀ lr, chain m1 base r = some lr →
        chain (setByte (setByte (setByte m1 (oPrnt base x) y)
          (oNext base x) (byteAt m1 (oFirst base y))) (oFirst base y) x)
          base r = some lr := by
      intro r hr1 hrN hry lr hlr
      refine chain_congr m1 _ base r lr hlr (hfst2 r hry) (fun o ho => ?_)
      exact hnext2 o (fun he => hnot1 r hr1 hrN lr hlr (he ▸ ho))
    refine ⟨setByte (setByte (setByte m1 (oPrnt base x) y) (oNext base x)
      (byteAt m1 (oFirst base y))) (oFirst base y) x, ?_, ?_, hpx2,
      fun h => absurd h hy0, ?_⟩
    · simp only [move, hrem]
      rw [if_pos hy0, hfy]
    · -- WF is preserved
      unfold WF
      refine ⟨hN, ?_, ?_, ?_, ?_, ?_⟩
      · rw [setByte_length, setByte_length, setByte_length]
        exact hbound1
      · intro o ho ho1
        by_cases hox : o = x
        · subst hox
          rw [hpx2, hnx2, hfst2 o hxy]
          exact ⟨by omega, hfyN, (hvalnf1 o ho1 hxN).2⟩
        · by_cases hoy : o = y
          · subst hoy
            rw [hprnt2 o hox, hnext2 o hox, hfy2, hprnt1 o]
            exact ⟨(hval o ho ho1).1, (hvalnf1 o ho1 hyN).1, by omega⟩
          · rw [hprnt2 o hox, hnext2 o hox, hfst2 o hoy, hprnt1 o]
            exact ⟨(hval o ho ho1).1, (hvalnf1 o ho1 (by simp at ho; omega)).1,
              (hvalnf1 o ho1 (by simp at ho; omega)).2⟩
      · intro r hr hr1
        by_cases hry : r = y
        · subst hry
          rw [hchy2]
          rfl
        · obtain ⟨lr, hlr⟩ := hchain1 r hr1 (by simp at hr; omega)
          rw [hch2 r hr1 (by simp at hr; omega) hry lr hlr]
          rfl
      · intro r hr hr1 o ho
        by_cases hry : r = y
        · subst hry
          rw [hchy2] at ho
          simp only [Option.getD_some] at ho
          rcases List.mem_cons.mp ho with rfl | ho2
          · exact hpx2
          · have hox : o ≠ x := fun he => hxly (he ▸ ho2)
            rw [hprnt2 o hox]
            exact hmemp1 r hy1 hyN ly hly o ho2
        · obtain ⟨lr, hlr⟩ := hchain1 r hr1 (by simp at hr; omega)
          rw [hch2 r hr1 (by simp at hr; omega) hry lr hlr] at ho
          simp only [Option.getD_some] at ho
          have hox : o ≠ x := fun he =>
            hnot1 r hr1 (by simp at hr; omega) lr hlr (he ▸ ho)
          rw [hprnt2 o hox]
          exact hmemp1 r hr1 (by simp at hr; omega) lr hlr o ho
      · intro o ho ho1 hop
        by_cases hox : o = x
        · subst hox
          rw [hpx2, hchy2]
          simp
        · rw [hprnt2 o hox] at hop ⊢
          obtain ⟨lr, hlr, holr⟩ :=
            hpmem1 o ho1 (by simp at ho; omega) hox hop
          have hprN : byteAt m1 (oPrnt base o) ≤ N := by
            rw [hprnt1 o]
            exact (hval o ho ho1).1
          by_cases hpy : byteAt m1 (oPrnt base o) = y
          · rw [hpy] at hlr ⊢
            rw [hchy2]
            have hlre : lr = ly := Option.some.inj (hlr.symm.trans hly)
            subst hlre
            simp only [Option.getD_some]
            exact List.mem_cons_of_mem x holr
          · rw [hch2 _ (by omega) hprN hpy lr hlr]
            simpa using holr
    · intro l hpa0 hpay hl
      have hm1pa := herase1 hpa0 l hl
      exact hch2 _ (by omega) hpaN hpay _ hm1pa

/-- C6: on a well-formed object table, for a reachable object `o` moved
first to destination `p` and then to destination `q` (destinations other
than `o` itself), the parent byte of `o` ends up equal to `q` and the
sibling chain rooted at any parent `r ≠ q` does not contain `o`; and a
single `move(o, 0)` zeroes `o`'s parent byte, clears `o`'s next-sibling
byte, and detaches `o` from its old parent's child chain, which becomes
the old chain with `o` erased. -/
theorem move_tree_spec (mem : List Nat) (base N o p q : Nat)
    (hwf : WF mem base N) (ho1 : 1 ≤ o) (hoN : o ≤ N) (hpN : p ≤ N)
    (hqN : q ≤ N) (hop : o ≠ p) (hoq : o ≠ q) :
    (∃ m1 m2, move mem base o p = some m1 ∧ move m1 base o q = some m2 ∧
      byteAt m2 (oPrnt base o) = q ∧
      ∀ r, 1 ≤ r → r ≤ N → r ≠ q →
        ∀ l, chain m2 base r = some l → o ∉ l) ∧
    (∃ m0, move mem base o 0 = some m0 ∧
      byteAt m0 (oPrnt base o) = 0 ∧ byteAt m0 (oNext base o) = 0 ∧
      (byteAt mem (oPrnt base o) ≠ 0 →
        ∀ l, chain mem base (byteAt mem (oPrnt base o)) = some l →
        chain m0 base (byteAt mem (oPrnt base o)) = some (l.erase o))) := by
  constructor
  · obtain ⟨m1, hm1, hwf1, _, _, _⟩ :=
      move_wf mem base N o p hwf ho1 hoN hpN hop
    obtain ⟨m2, hm2, hwf2, hp2, _, _⟩ :=
      move_wf m1 base N o q hwf1 ho1 hoN hqN hoq
    refine ⟨m1, m2, hm1, hm2, hp2, ?_⟩
    intro r hr1 hrN hrq l hl hmem
    unfold WF at hwf2
    obtain ⟨_, _, _, _, hmemp2, _⟩ := hwf2
    have hpr := hmemp2 r (by simp; omega) hr1 o (by rw [hl]; simpa using hmem)
    rw [hp2] at hpr
    exact hrq hpr.symm
  · obtain ⟨m0, hm0, _, hp0, hn0, her0⟩ :=
      move_wf mem base N o 0 hwf ho1 hoN (by omega) (by omega)
    exact ⟨m0, hm0, hp0, hn0 rfl, fun hpa l hl => her0 l hpa hpa hl⟩

/-- C6 witness: a two-object table at base 0 (object 1 is the only child
of object 2): `move(1, 0)` then `move(1, 2)` leaves object 1 with parent
byte 2 and in no chain rooted elsewhere, and `move(1, 0)` zeroes its
parent and next bytes and erases it from object 2's child chain. -/
theorem move_tree_spec_witness :
    WF [0, 0, 0, 0, 0, 0, 0, 0, 0, 0, 0, 0, 0, 2, 0, 0, 0, 0, 0, 0, 0, 0, 0, 0, 1] 0 2 ∧
    ((∃ m1 m2, move [0, 0, 0, 0, 0, 0, 0, 0, 0, 0, 0, 0, 0, 2, 0, 0, 0, 0, 0, 0, 0, 0, 0, 0, 1] 0 1 0 = some m1 ∧ move m1 0 1 2 = some m2 ∧
      byteAt m2 (oPrnt 0 1) = 2 ∧
      ∀ r, 1 ≤ r → r ≤ 2 → r ≠ 2 →
        ∀ l, chain m2 0 r = some l → 1 ∉ l) ∧
    (∃ m0, move [0, 0, 0, 0, 0, 0, 0, 0, 0, 0, 0, 0, 0, 2, 0, 0, 0, 0, 0, 0, 0, 0, 0, 0, 1] 0 1 0 = some m0 ∧
      byteAt m0 (oPrnt 0 1) = 0 ∧ byteAt m0 (oNext 0 1) = 0 ∧
      (byteAt [0, 0, 0, 0, 0, 0, 0, 0, 0, 0, 0, 0, 0, 2, 0, 0, 0, 0, 0, 0, 0, 0, 0, 0, 1] (oPrnt 0 1) ≠ 0 →
        ∀ l, chain [0, 0, 0, 0, 0, 0, 0, 0, 0, 0, 0, 0, 0, 2, 0, 0, 0, 0, 0, 0, 0, 0, 0, 0, 1] 0 (byteAt [0, 0, 0, 0, 0, 0, 0, 0, 0, 0, 0, 0, 0, 2, 0, 0, 0, 0, 0, 0, 0, 0, 0, 0, 1] (oPrnt 0 1)) = some l →
        chain m0 0 (byteAt [0, 0, 0, 0, 0, 0, 0, 0, 0, 0, 0, 0, 0, 2, 0, 0, 0, 0, 0, 0, 0, 0, 0, 0, 1] (oPrnt 0 1)) = some (l.erase 1)))) :=
  ⟨by decide,
    move_tree_spec [0, 0, 0, 0, 0, 0, 0, 0, 0, 0, 0, 0, 0, 2, 0, 0, 0, 0, 0, 0, 0, 0, 0, 0, 1] 0 2 1 0 2 (by decide) (by decide) (by decide)
      (by decide) (by decide) (by decide) (by decide)⟩

end JSZM
